import Mathlib

/-!
# AmendEcgAnnotation

A shallow embedding of `AmendEcgAnnotation.cpp` (the tool that copies visit
comments and clinician names of an ECG waveform record into its waveform
annotation sequence) together with theorems about it.

Strings (`OFString`) are lists of characters, one per byte.  A record is
modelled by what the field lookups of the record library return for the keys
the program reads.  The static option flags are passed explicitly, and the
static flag `_bIncludeBevestigingDoor` is threaded through the run.
-/

namespace AmendEcgAnnotation

/-! ## Strings -/

/-- An `OFString`: a list of characters. -/
abbrev OFString := List Char

/-- The NUL character, which ends a C string. -/
def nulChar : Char := Char.ofNat 0

/-- The backslash, the value delimiter of a multi-valued field. -/
def backslashChar : Char := Char.ofNat 92

/-- Carriage return and line feed, the joint used when lines are merged. -/
def crlf : OFString := [Char.ofNat 13, Char.ofNat 10]

/-- The text seen through `c_str()` by a `%s` conversion or by
`putAndInsertString`: the characters before the first NUL. -/
def c_str (s : OFString) : OFString := s.takeWhile (fun c => c != nulChar)

/-- The assignment `ofstr = bufST` after
`snprintf(bufST, 1024, "<label>%s", arg.c_str())`: the formatted text, cut to
the 1023 characters that fit in `bufST` before the terminating NUL. -/
def snprintfST (label arg : OFString) : OFString := (label ++ c_str arg).take 1023

/-- Worker of `find`: the position of the first occurrence of `pattern` at or
after the current position `pos`. -/
def findFrom (pattern : OFString) : Nat → OFString → Option Nat
  | pos, [] => if pattern.isEmpty then some pos else none
  | pos, c :: cs =>
    if pattern.isPrefixOf (c :: cs) then some pos else findFrom pattern (pos + 1) cs

/-- The call `s.find(pattern)`: `none` stands for `npos`. -/
def find (s pattern : OFString) : Option Nat := findFrom pattern 0 s

/-- Worker of `replace_all`, a left-to-right scan.  `skip` counts the characters
of a matched occurrence that are still to be passed over; the replacement text
is emitted and never searched again, as the search in the library loop resumes
at `pos + rpl.size()`. -/
def replaceScan (pattern rpl : OFString) : Nat → OFString → OFString
  | _, [] => []
  | skip + 1, _ :: cs => replaceScan pattern rpl skip cs
  | 0, c :: cs =>
    if pattern.isPrefixOf (c :: cs) then
      rpl ++ replaceScan pattern rpl (pattern.length - 1) cs
    else c :: replaceScan pattern rpl 0 cs

/-- The library routine `OFStringUtil::replace_all(src, pattern, rpl)`: every
occurrence of `pattern`, found from left to right without overlap, is replaced
by `rpl`; an empty pattern leaves `src` as it is. -/
def replace_all (src pattern rpl : OFString) : OFString :=
  if pattern.isEmpty then src else replaceScan pattern rpl 0 src

/-! ## Result codes -/

abbrev RESULT_SUCCESS : Int := 0
abbrev RESULT_FAILED_TO_CREATE : Int := -1
abbrev RESULT_FAILED_TO_READ : Int := -2
abbrev RESULT_ERROR_MISSING_TAG : Int := -3
abbrev RESULT_ERROR_WRONGSOP_CLASS : Int := -4
abbrev RESULT_WARN_NO_CHANGES : Int := 1
abbrev RESULT_WARN_ALREADY_AMENDED : Int := 2
abbrev RESULT_FAILED_TO_CLONE_OFFSET : Int := 10

/-- The static option flags set from the command line. -/
structure Options where
  bVerbose : Bool
  bNoCloneOnErrror : Bool
  bMergeLines : Bool
deriving DecidableEq

/-- What `TryFileClone` observes of the file system. -/
structure CloneEnv where
  /-- Holds when `OFStandard::fileExists(ofstrInputFile)` does. -/
  inputExists : Bool
  /-- Holds when the input and output paths compare equal. -/
  samePath : Bool
  /-- Holds when `OFStandard::copyFile` succeeds. -/
  copyOk : Bool
deriving DecidableEq

/-- The function `TryFileClone`: clone the input to the output after a warning
or an error and return the exit code.  The codes it is called with are the
base codes, far from the bounds of `int`. -/
def TryFileClone (bNoCloneOnErrror : Bool) (env : CloneEnv) (resultSoFar : Int) : Int :=
  if bNoCloneOnErrror && decide (resultSoFar < 0) then resultSoFar
  else if env.inputExists then
    if env.samePath then resultSoFar
    else if env.copyOk then resultSoFar
    else if resultSoFar < 0 then resultSoFar - RESULT_FAILED_TO_CLONE_OFFSET
    else resultSoFar + RESULT_FAILED_TO_CLONE_OFFSET
  else RESULT_FAILED_TO_READ - RESULT_FAILED_TO_CLONE_OFFSET

/-! ## Name normalization -/

def ofstrCaret3 : OFString := ['^', '^', '^']
def ofstrCaret2 : OFString := ['^', '^']
def ofstrCaret : OFString := ['^']
def ofstrCommaSpace : OFString := [',', ' ']

/-- The function `HumanReadableName`: remove the carets of a person name.
The two character reads `*s.begin()` and `*(s.end()-1)` need a non-empty
string; the result is `none` when one of them is made on an empty string. -/
def HumanReadableName (s : OFString) : Option OFString :=
  let s1 := replace_all s ofstrCaret3 ofstrCaret
  let s2 := replace_all s1 ofstrCaret2 ofstrCaret
  let s3 := replace_all s2 ofstrCaret2 ofstrCaret
  match s3.head? with
  | none => none
  | some first =>
    let s4 := if first = '^' then s3.drop 1 else s3
    match s4.getLast? with
    | none => none
    | some last =>
      let s5 := if last = '^' then s4.take (s4.length - 1) else s4
      some (replace_all s5 ofstrCaret ofstrCommaSpace)

/-- The string that `HumanReadableName` holds when it reads `*s.begin()`: the
name after the three collapsing calls of `replace_all`. -/
def stringAtFirstRead (s : OFString) : OFString :=
  replace_all (replace_all (replace_all s ofstrCaret3 ofstrCaret) ofstrCaret2 ofstrCaret)
    ofstrCaret2 ofstrCaret

/-- The string that `HumanReadableName` holds when it reads `*(s.end()-1)`:
the string of the first read, without its first character when that is a
caret (`s.erase(0, 1)`). -/
def stringAtLastRead (s : OFString) : OFString :=
  match (stringAtFirstRead s).head? with
  | none => []
  | some first => if first = '^' then (stringAtFirstRead s).drop 1 else stringAtFirstRead s

/-! ## The record -/

/-- An item of the WaveformSequence (one multiplex group), by the two fields
the program looks up in it. -/
structure WaveformItem where
  /-- WaveformOriginality (003a,0004), if present. -/
  waveformOriginality : Option OFString
  /-- NumberOfWaveformChannels (003a,0005), if present. -/
  numberOfWaveformChannels : Option Nat
deriving DecidableEq

/-- An item of the WaveformAnnotationSequence, by the three attributes the
program reads or writes; `none` is an absent attribute. -/
structure AnnotationItem where
  /-- ReferencedWaveformChannels (0040,a0b0). -/
  referencedWaveformChannels : Option OFString
  /-- AnnotationGroupNumber (0040,a180). -/
  annotationGroupNumber : Option OFString
  /-- UnformattedTextValue (0070,0006). -/
  unformattedTextValue : Option OFString
deriving DecidableEq

/-- The data set of a loaded file, by the fields the program looks up.  A
string field is `some v` when the lookup (`findAndGetOFString` or
`findAndGetOFStringArray`) is good and yields `v`, and `none` when it is not;
a sequence is `some items` when `findAndGetSequence` is good. -/
structure Dataset where
  sopClassUID : Option OFString
  visitComments : Option OFString
  operatorsName : Option OFString
  referringPhysicianName : Option OFString
  physiciansOfRecord : Option OFString
  nameOfPhysiciansReadingStudy : Option OFString
  waveformSequence : Option (List WaveformItem)
  waveformAnnotationSequence : Option (List AnnotationItem)
deriving DecidableEq

/-! ## Collecting the text lines -/

/-- The separator line `_ofstrAnnotationSeparator`. -/
def ofstrAnnotationSeparator : OFString := "-+-".toList

/-- The line put in place of an absent reading physician. -/
def ofstrOnbevestigd : OFString := "Bevestigd door: Onbevestigd".toList

/-- The VisitComments block: the labelled line, or the empty string when the
field is missing or empty. -/
def formatVisitComments (field : Option OFString) : OFString :=
  match field with
  | some v => if v.isEmpty then [] else snprintfST "Testind: ".toList v
  | none => []

/-- The block shared by OperatorsName, ReferringPhysicianName and
PhysiciansOfRecord: normalise the name and label it; the empty string when
the field is missing or empty. -/
def formatName (label : OFString) (field : Option OFString) : Option OFString :=
  match field with
  | some v =>
    if v.isEmpty then some []
    else (HumanReadableName v).map (fun name => snprintfST label name)
  | none => some []

/-- The NameOfPhysiciansReadingStudy block, which reads the flag
`_bIncludeBevestigingDoor`. -/
def formatReadingPhysician (bIncludeBevestigingDoor : Bool) (field : Option OFString) :
    Option OFString :=
  match field with
  | some v =>
    if v.isEmpty then some ofstrOnbevestigd
    else if bIncludeBevestigingDoor then
      (HumanReadableName v).map (fun name => snprintfST "Bevestigd door: ".toList name)
    else some []
  | none => some ofstrOnbevestigd

/-- One guarded push `if (!line.empty()) ofstrStack.push(line)`; the head of
the list is the top of the stack. -/
def pushNonEmpty (stack : List OFString) (line : OFString) : List OFString :=
  if line.isEmpty then stack else line :: stack

/-- The stack of lines as it stands after the five guarded pushes, top first. -/
def assembleStack (bIncludeBevestigingDoor : Bool) (ds : Dataset) : Option (List OFString) :=
  let ofstrVisitComments := formatVisitComments ds.visitComments
  match formatName "Technicus: ".toList ds.operatorsName with
  | none => none
  | some ofstrOperatorsName =>
  match formatName "Verwezen door: ".toList ds.referringPhysicianName with
  | none => none
  | some ofstrReferringPhysicianName =>
  match formatName "Aangevraagd door: ".toList ds.physiciansOfRecord with
  | none => none
  | some ofstrPhysiciansOfRecord =>
  match formatReadingPhysician bIncludeBevestigingDoor ds.nameOfPhysiciansReadingStudy with
  | none => none
  | some ofstrNameOfPhysiciansReadingStudy =>
    some (pushNonEmpty (pushNonEmpty (pushNonEmpty (pushNonEmpty (pushNonEmpty
      [ofstrAnnotationSeparator] ofstrVisitComments) ofstrOperatorsName)
      ofstrReferringPhysicianName) ofstrPhysiciansOfRecord)
      ofstrNameOfPhysiciansReadingStudy)

/-- The merge loop: pop every line and put it in front of what was merged so
far, joined by CR LF. -/
def mergeLoop : List OFString → OFString → OFString
  | [], ofstrMerged => ofstrMerged
  | strLine :: rest, ofstrMerged =>
    mergeLoop rest (if ofstrMerged.isEmpty then strLine else strLine ++ crlf ++ ofstrMerged)

/-- The stack after the merge block: the one merged paragraph. -/
def mergeLines (stack : List OFString) : List OFString := [mergeLoop stack []]

/-! ## Waveform groups and the annotation scan -/

/-- The loop over the WaveformSequence: the channel reference is computed at
the first ORIGINAL group, inside the block guarded by the verbose flag. -/
def scanWaveforms (bVerbose : Bool) : Nat → List WaveformItem → OFString → OFString
  | _, [], ofstrReferencedWaveformChannels => ofstrReferencedWaveformChannels
  | iMultiplexWaveform, pItem :: rest, ofstrReferencedWaveformChannels =>
    let ofstdWaveformOriginality := pItem.waveformOriginality.getD []
    scanWaveforms bVerbose (iMultiplexWaveform + 1) rest
      (if bVerbose && (ofstrReferencedWaveformChannels.isEmpty
            && decide (ofstdWaveformOriginality = "ORIGINAL".toList)) then
        Nat.toDigits 10 (iMultiplexWaveform + 1) ++ [backslashChar, '0']
      else ofstrReferencedWaveformChannels)

/-- The variables the annotation scan updates.  `iFirstNonTextItem = none`
stands for `DCM_EndOfListIndex`. -/
structure ScanState where
  pLastUnformattedTextItem : Option AnnotationItem
  iFirstNonTextItem : Option Nat
  bIncludeBevestigingDoor : Bool
deriving DecidableEq

/-- How the annotation scan ends: with the early return "already amended", or
at the end of the sequence. -/
inductive ScanResult where
  | alreadyAmended (bIncludeBevestigingDoor : Bool)
  | completed (st : ScanState)
deriving DecidableEq

/-- The loop over the items of the WaveformAnnotationSequence. -/
def scanAnnotations : Nat → List AnnotationItem → ScanState → ScanResult
  | _, [], st => ScanResult.completed st
  | iItem, pItem :: rest, st =>
    match pItem.unformattedTextValue with
    | some ofstrValue =>
      if (find ofstrValue ofstrAnnotationSeparator).isSome then
        ScanResult.alreadyAmended st.bIncludeBevestigingDoor
      else
        scanAnnotations (iItem + 1) rest
          { pLastUnformattedTextItem := some pItem
            iFirstNonTextItem := st.iFirstNonTextItem
            bIncludeBevestigingDoor :=
              if (find ofstrValue "evestigd".toList).isSome then false
              else st.bIncludeBevestigingDoor }
    | none =>
      scanAnnotations (iItem + 1) rest
        { pLastUnformattedTextItem := st.pLastUnformattedTextItem
          iFirstNonTextItem :=
            if st.iFirstNonTextItem.isNone then some iItem else st.iFirstNonTextItem
          bIncludeBevestigingDoor := st.bIncludeBevestigingDoor }

/-! ## Inserting the new items -/

/-- The call `seqWaveformAnnotations->insert(pNew, pos, true)` of the record
library.  With `pos` below the number of items the new item is put before the
item at `pos`; with `DCM_EndOfListIndex` (`none`), or any position past the
end, no current item is found and the new item is appended. -/
def seqInsertBefore (seq : List AnnotationItem) (pNew : AnnotationItem) (pos : Option Nat) :
    List AnnotationItem :=
  match pos with
  | none => seq ++ [pNew]
  | some k => if k < seq.length then seq.take k ++ pNew :: seq.drop k else seq ++ [pNew]

/-- The dummy annotation built when no item carries a text value. -/
def dummyAnnotation (ofstrReferencedWaveformChannels : OFString) : AnnotationItem :=
  { referencedWaveformChannels := some (c_str ofstrReferencedWaveformChannels)
    annotationGroupNumber := some "0".toList
    unformattedTextValue := none }

/-- The item that is cloned for every line: the last item with a text value,
or else the dummy, whose channel reference falls back to group 1 when the
waveform loop left it empty. -/
def templateItem (pLastUnformattedTextItem : Option AnnotationItem)
    (ofstrReferencedWaveformChannels : OFString) : AnnotationItem :=
  match pLastUnformattedTextItem with
  | some pItem => pItem
  | none =>
    dummyAnnotation
      (if ofstrReferencedWaveformChannels.isEmpty then ['1', backslashChar, '0']
       else ofstrReferencedWaveformChannels)

/-- The new item `pNew` for one line: a clone of the template whose
UnformattedTextValue is set to the line.  Setting a string on a fresh clone
does not fail in the record library. -/
def cloneWithText (pLastUnformattedTextItem : AnnotationItem) (strLine : OFString) :
    AnnotationItem :=
  { pLastUnformattedTextItem with unformattedTextValue := some (c_str strLine) }

/-- The insertion loop: pop each line, clone the template with the line as
its text and insert the clone at `iFirstNonTextItem`. -/
def insertLines (pLastUnformattedTextItem : AnnotationItem) (iFirstNonTextItem : Option Nat) :
    List OFString → List AnnotationItem → List AnnotationItem
  | [], seq => seq
  | strLine :: rest, seq =>
    insertLines pLastUnformattedTextItem iFirstNonTextItem rest
      (seqInsertBefore seq (cloneWithText pLastUnformattedTextItem strLine) iFirstNonTextItem)

/-! ## The amendment -/

/-- What one run leaves behind. -/
structure Outcome where
  /-- The code `RESULT_SUCCESS`, or the code handed to `TryFileClone`. -/
  result : Int
  /-- The data set in memory when the run ends. -/
  dataset : Dataset
  /-- Holds when `saveFile` wrote `dataset` to the output file. -/
  serialized : Bool
  /-- The flag `_bIncludeBevestigingDoor` when the run ends. -/
  bIncludeBevestigingDoor : Bool
deriving DecidableEq

/-- Holds when the SOP class is none of the three accepted ECG classes (the
three `compare(...) != 0` tests). -/
def wrongSOPClass (ofstrSOPClassUID : OFString) : Bool :=
  ofstrSOPClassUID != "1.2.840.10008.5.1.4.1.1.9.1.1".toList
    && (ofstrSOPClassUID != "1.2.840.10008.5.1.4.1.1.9.1.2".toList
        && ofstrSOPClassUID != "1.2.840.10008.5.1.4.1.1.9.1.3".toList)

/-- The data set whose WaveformAnnotationSequence holds the items `seq`. -/
def withAnnotations (ds : Dataset) (seq : List AnnotationItem) : Dataset :=
  { ds with waveformAnnotationSequence := some seq }

/-- The part of `main` from the annotation scan to `saveFile`, for the stack
`ofstrStack` and the channel reference left by the waveform loop.

When the record has no WaveformAnnotationSequence the program builds one with
`newDicomElement`, a factory of the record library that returns a new element
and does not put it into the data set; the program never inserts it, so the
new items go into a sequence that is not part of the data set that is saved. -/
def spliceAnnotations (saveOk : Bool) (bInclude : Bool) (ds : Dataset)
    (ofstrStack : List OFString) (ofstrReferencedWaveformChannels : OFString) : Outcome :=
  match scanAnnotations 0 (ds.waveformAnnotationSequence.getD []) ⟨none, none, bInclude⟩ with
  | ScanResult.alreadyAmended b => ⟨RESULT_WARN_ALREADY_AMENDED, ds, false, b⟩
  | ScanResult.completed st =>
    let seqWaveformAnnotations :=
      insertLines (templateItem st.pLastUnformattedTextItem ofstrReferencedWaveformChannels)
        st.iFirstNonTextItem ofstrStack (ds.waveformAnnotationSequence.getD [])
    let amended : Dataset :=
      match ds.waveformAnnotationSequence with
      | some _ => withAnnotations ds seqWaveformAnnotations
      | none => ds
    if saveOk then ⟨RESULT_SUCCESS, amended, true, st.bIncludeBevestigingDoor⟩
    else ⟨RESULT_FAILED_TO_CREATE, amended, false, st.bIncludeBevestigingDoor⟩

/-- The part of `main` that follows the five guarded pushes, for the stack
`pushed` they left: the "nothing to add" test, the merge block, the waveform
loop and test, and then the annotation sequence. -/
def amendWithStack (opts : Options) (saveOk : Bool) (bInclude : Bool) (ds : Dataset)
    (pushed : List OFString) : Outcome :=
  if pushed.length ≤ 1 then ⟨RESULT_WARN_NO_CHANGES, ds, false, bInclude⟩
  else
    let ofstrStack := if opts.bMergeLines then mergeLines pushed else pushed
    let seqWaveform := ds.waveformSequence.getD []
    let ofstrReferencedWaveformChannels := scanWaveforms opts.bVerbose 0 seqWaveform []
    if seqWaveform.length = 0 then ⟨RESULT_ERROR_MISSING_TAG, ds, false, bInclude⟩
    else spliceAnnotations saveOk bInclude ds ofstrStack ofstrReferencedWaveformChannels

/-- The body of `main` once the file is loaded, started with the flag
`_bIncludeBevestigingDoor` at `bInclude`.  `saveOk` tells whether `saveFile`
succeeds.  The result is `none` when `HumanReadableName` reads a character of
an empty string. -/
def amendFrom (opts : Options) (saveOk : Bool) (bInclude : Bool) (ds : Dataset) :
    Option Outcome :=
  if wrongSOPClass (ds.sopClassUID.getD []) then
    some ⟨RESULT_ERROR_WRONGSOP_CLASS, ds, false, bInclude⟩
  else
    match assembleStack bInclude ds with
    | none => none
    | some pushed => some (amendWithStack opts saveOk bInclude ds pushed)

/-- One run of the program on a loaded file: the flag `_bIncludeBevestigingDoor`
starts at its static initial value `OFTrue`. -/
def amend (opts : Options) (saveOk : Bool) (ds : Dataset) : Option Outcome :=
  amendFrom opts saveOk true ds

/-! ## Definitions used to state the properties -/

/-- The base codes a run hands to `TryFileClone`. -/
def baseCodes : List Int :=
  [RESULT_ERROR_WRONGSOP_CLASS, RESULT_ERROR_MISSING_TAG, RESULT_FAILED_TO_READ,
   RESULT_FAILED_TO_CREATE, RESULT_WARN_NO_CHANGES, RESULT_WARN_ALREADY_AMENDED]

/-- The three accepted SOP classes: 12-lead, general and ambulatory ECG. -/
def acceptedSOPClasses : List OFString :=
  ["1.2.840.10008.5.1.4.1.1.9.1.1".toList, "1.2.840.10008.5.1.4.1.1.9.1.2".toList,
   "1.2.840.10008.5.1.4.1.1.9.1.3".toList]

/-- A source field that is missing or holds the empty string. -/
abbrev absentOrEmpty (field : Option OFString) : Prop := field = none ∨ field = some []

/-- No text value of the record's annotation items holds the confirmation
text "evestigd" that the annotation scan looks for. -/
abbrev noConfirmationText (ds : Dataset) : Prop :=
  ∀ pItem ∈ ds.waveformAnnotationSequence.getD [],
    (find (pItem.unformattedTextValue.getD []) "evestigd".toList).isSome = false

/-- The index of the first item without a text value; the number of items
when every item has one. -/
def firstTextless (g : List AnnotationItem) : Nat :=
  g.findIdx (fun pItem => pItem.unformattedTextValue.isNone)

/-! ### Example records -/

/-- The SOP class of a 12-lead ECG. -/
def ecg12Lead : OFString := "1.2.840.10008.5.1.4.1.1.9.1.1".toList

/-- The channel reference of waveform group 1, the text `1\0`. -/
def channelsOfGroup1 : OFString := ['1', backslashChar, '0']

/-- The channel reference of waveform group 2, the text `2\0`. -/
def channelsOfGroup2 : OFString := ['2', backslashChar, '0']

/-- An annotation item X with a text value. -/
def itemX : AnnotationItem := ⟨some channelsOfGroup1, some "0".toList, some "Sinusritme".toList⟩

/-- An annotation item Y without a text value. -/
def itemY : AnnotationItem := ⟨some channelsOfGroup1, some "1".toList, none⟩

/-- An annotation item Z with a text value. -/
def itemZ : AnnotationItem := ⟨some channelsOfGroup1, some "2".toList, some "Normaal ECG".toList⟩

/-- A 12-lead ECG with visit comments, one waveform group and the annotation
items `seq`. -/
def recordWith (seq : Option (List AnnotationItem)) : Dataset :=
  { sopClassUID := some ecg12Lead
    visitComments := some "pijn".toList
    operatorsName := none
    referringPhysicianName := none
    physiciansOfRecord := none
    nameOfPhysiciansReadingStudy := none
    waveformSequence := some [⟨some "ORIGINAL".toList, some 12⟩]
    waveformAnnotationSequence := seq }

/-- The texts of the annotation items of a record, in sequence order. -/
def annotationTexts (ds : Dataset) : List (Option String) :=
  (ds.waveformAnnotationSequence.getD []).map
    (fun pItem => pItem.unformattedTextValue.map String.mk)

/-! ### Name normalization, as the specification words it -/

/-- The name the specification expects: the non-empty parts of `s` between
carets, joined with a comma and a space. -/
def expectedName (s : OFString) : OFString :=
  List.intercalate ofstrCommaSpace ((s.splitOn '^').filter (fun part => !part.isEmpty))

/-- A caret run of length `n` after one pass that replaces three carets by
one. -/
def afterCaret3 (n : Nat) : Nat := n / 3 + n % 3

/-- A caret run of length `n` after one pass that replaces two carets by
one. -/
def afterCaret2 (n : Nat) : Nat := n / 2 + n % 2

/-- A caret run after collapsing: one caret, if there is any. -/
def collapsedRun (n : Nat) : Nat := if n = 0 then 0 else 1

/-- The text `s`, entered after `n` carets, with every maximal run of `k`
carets replaced by `f k` carets. -/
def mapRuns (f : Nat → Nat) : Nat → OFString → OFString
  | n, [] => List.replicate (f n) '^'
  | n, c :: cs =>
    if c = '^' then mapRuns f (n + 1) cs
    else List.replicate (f n) '^' ++ c :: mapRuns f 0 cs

/-- The characters of `s` other than carets, with a comma and a space put
before a character that follows a caret (`pending`) when a character was
already written (`started`). -/
def normScan : Bool → Bool → OFString → OFString
  | _, _, [] => []
  | started, pending, c :: cs =>
    if c = '^' then normScan started true cs
    else (if started && pending then ofstrCommaSpace ++ [c] else [c]) ++ normScan true false cs

/-- The text `t` without its last character when that is a caret. -/
def dropLastCaret (t : OFString) : OFString :=
  match t.getLast? with
  | none => []
  | some last => if last = '^' then t.take (t.length - 1) else t

/-- Holds when every comma of `t` is followed by a space and then by a
character that is not a comma. -/
def commasDelimit : OFString → Bool
  | [] => true
  | c :: cs =>
    if c = ',' then
      match cs with
      | d :: e :: _ => decide (d = ' ') && decide (e ≠ ',') && commasDelimit cs
      | _ => false
    else commasDelimit cs

/-! ## The stages of a run -/

theorem wrongSOPClass_eq_false_iff (u : OFString) :
    wrongSOPClass u = false ↔ u ∈ acceptedSOPClasses := by
  simp only [wrongSOPClass, acceptedSOPClasses, List.mem_cons, List.mem_singleton,
    Bool.and_eq_false_iff, bne_eq_false_iff_eq, List.not_mem_nil, or_false, or_assoc]

/-- The annotation part ends with the "already amended" warning, with success
or with the save failure, and the warning leaves the record as it was. -/
theorem spliceAnnotations_result (saveOk b : Bool) (ds : Dataset) (stack : List OFString)
    (chans : OFString) :
    ((spliceAnnotations saveOk b ds stack chans).result = RESULT_WARN_ALREADY_AMENDED ∧
      (spliceAnnotations saveOk b ds stack chans).dataset = ds ∧
      (spliceAnnotations saveOk b ds stack chans).serialized = false) ∨
    ((spliceAnnotations saveOk b ds stack chans).result = RESULT_SUCCESS ∧
      (spliceAnnotations saveOk b ds stack chans).serialized = true) ∨
    ((spliceAnnotations saveOk b ds stack chans).result = RESULT_FAILED_TO_CREATE ∧
      (spliceAnnotations saveOk b ds stack chans).serialized = false) := by
  unfold spliceAnnotations
  split
  · exact Or.inl ⟨rfl, rfl, rfl⟩
  · cases saveOk
    · exact Or.inr (Or.inr ⟨rfl, rfl⟩)
    · exact Or.inr (Or.inl ⟨rfl, rfl⟩)

theorem amendWithStack_of_short (opts : Options) (saveOk b : Bool) (ds : Dataset)
    (pushed : List OFString) (h : pushed.length ≤ 1) :
    amendWithStack opts saveOk b ds pushed = ⟨RESULT_WARN_NO_CHANGES, ds, false, b⟩ := by
  unfold amendWithStack
  rw [if_pos h]

theorem amendWithStack_of_no_waveform (opts : Options) (saveOk b : Bool) (ds : Dataset)
    (pushed : List OFString) (h : ¬ pushed.length ≤ 1)
    (hw : (ds.waveformSequence.getD []).length = 0) :
    amendWithStack opts saveOk b ds pushed = ⟨RESULT_ERROR_MISSING_TAG, ds, false, b⟩ := by
  unfold amendWithStack
  rw [if_neg h]
  simp only [hw, if_true]

theorem amendWithStack_of_waveform (opts : Options) (saveOk b : Bool) (ds : Dataset)
    (pushed : List OFString) (h : ¬ pushed.length ≤ 1)
    (hw : ¬ (ds.waveformSequence.getD []).length = 0) :
    amendWithStack opts saveOk b ds pushed =
      spliceAnnotations saveOk b ds (if opts.bMergeLines then mergeLines pushed else pushed)
        (scanWaveforms opts.bVerbose 0 (ds.waveformSequence.getD []) []) := by
  unfold amendWithStack
  rw [if_neg h]
  simp only [hw, if_false]

/-- The outcomes of the part of a run that follows the pushes. -/
theorem amendWithStack_result (opts : Options) (saveOk b : Bool) (ds : Dataset)
    (pushed : List OFString) :
    ((amendWithStack opts saveOk b ds pushed).result = RESULT_WARN_NO_CHANGES ∧
      pushed.length ≤ 1 ∧
      (amendWithStack opts saveOk b ds pushed).dataset = ds ∧
      (amendWithStack opts saveOk b ds pushed).serialized = false) ∨
    ((amendWithStack opts saveOk b ds pushed).result = RESULT_ERROR_MISSING_TAG ∧
      (amendWithStack opts saveOk b ds pushed).dataset = ds ∧
      (amendWithStack opts saveOk b ds pushed).serialized = false) ∨
    ((amendWithStack opts saveOk b ds pushed).result = RESULT_WARN_ALREADY_AMENDED ∧
      (amendWithStack opts saveOk b ds pushed).dataset = ds ∧
      (amendWithStack opts saveOk b ds pushed).serialized = false) ∨
    ((amendWithStack opts saveOk b ds pushed).result = RESULT_SUCCESS ∧
      (amendWithStack opts saveOk b ds pushed).serialized = true) ∨
    ((amendWithStack opts saveOk b ds pushed).result = RESULT_FAILED_TO_CREATE ∧
      (amendWithStack opts saveOk b ds pushed).serialized = false) := by
  by_cases h : pushed.length ≤ 1
  · rw [amendWithStack_of_short opts saveOk b ds pushed h]
    exact Or.inl ⟨rfl, h, rfl, rfl⟩
  · by_cases hw : (ds.waveformSequence.getD []).length = 0
    · rw [amendWithStack_of_no_waveform opts saveOk b ds pushed h hw]
      exact Or.inr (Or.inl ⟨rfl, rfl, rfl⟩)
    · rw [amendWithStack_of_waveform opts saveOk b ds pushed h hw]
      exact Or.inr (Or.inr (spliceAnnotations_result _ _ _ _ _))

/-! ## TryFileClone -/

theorem mem_baseCodes (r : Int) :
    r ∈ baseCodes ↔ r = -4 ∨ r = -3 ∨ r = -2 ∨ r = -1 ∨ r = 1 ∨ r = 2 := by
  simp [baseCodes]

/-- C10: for a base code and an existing input file, `TryFileClone` returns the
code unchanged when the copy is skipped or succeeds, and the code moved away
from zero by 10 when the copy fails; the moved code keeps the sign, has a
larger magnitude, is no base code, and differs for different base codes. -/
theorem TryFileClone_base_code (bNoClone : Bool) (env : CloneEnv) (r : Int)
    (hr : r ∈ baseCodes) (hin : env.inputExists = true) :
    ((env.samePath = true ∨ (bNoClone = true ∧ r < 0) ∨ env.copyOk = true) →
        TryFileClone bNoClone env r = r) ∧
    ((env.samePath = false ∧ ¬ (bNoClone = true ∧ r < 0) ∧ env.copyOk = false) →
        (r < 0 → TryFileClone bNoClone env r = r - 10) ∧
        (0 < r → TryFileClone bNoClone env r = r + 10) ∧
        (TryFileClone bNoClone env r < 0 ↔ r < 0) ∧
        |r| < |TryFileClone bNoClone env r| ∧
        TryFileClone bNoClone env r ∉ baseCodes ∧
        (∀ r2 ∈ baseCodes, ¬ (bNoClone = true ∧ r2 < 0) → r2 ≠ r →
          TryFileClone bNoClone env r2 ≠ TryFileClone bNoClone env r)) := by
  obtain ⟨ex, same, ok⟩ := env
  simp only at hin
  subst hin
  rw [mem_baseCodes] at hr
  refine ⟨?_, ?_⟩
  · intro h
    unfold TryFileClone
    rcases h with h | h | h
    · simp only at h; subst h; simp
    · simp [h.1, h.2]
    · simp only at h; subst h; simp
  · rintro ⟨h1, h2, h3⟩
    simp only at h1 h3
    subst h1 h3
    have key : ∀ x : Int, ¬ (bNoClone = true ∧ x < 0) →
        TryFileClone bNoClone ⟨true, false, false⟩ x = if x < 0 then x - 10 else x + 10 := by
      intro x hx
      unfold TryFileClone
      have : (bNoClone && decide (x < 0)) = false := by
        cases bNoClone <;> simp_all
      simp [this]
    rw [key r h2]
    refine ⟨?_, ?_, ?_, ?_, ?_, ?_⟩
    · intro h; simp [h]
    · intro h; have : ¬ r < 0 := by omega
      simp [this]
    · split <;> omega
    · rcases hr with rfl | rfl | rfl | rfl | rfl | rfl <;> decide
    · rw [mem_baseCodes]
      rcases hr with rfl | rfl | rfl | rfl | rfl | rfl <;> decide
    · intro r2 hr2 hs hne
      rw [key r2 hs]
      split <;> split <;> omega

theorem TryFileClone_base_code_witness :
    (-3 : Int) ∈ baseCodes ∧
    TryFileClone true ⟨true, false, false⟩ (-3) = -3 ∧
    TryFileClone false ⟨true, false, false⟩ (-3) = -3 - 10 :=
  ⟨by decide,
   (TryFileClone_base_code true ⟨true, false, false⟩ (-3) (by decide) rfl).1
    (Or.inr (Or.inl ⟨rfl, by decide⟩)),
   ((TryFileClone_base_code false ⟨true, false, false⟩ (-3) (by decide) rfl).2
    ⟨rfl, by decide, rfl⟩).1 (by decide)⟩

/-! ## Records without source fields -/

theorem formatName_absentOrEmpty (label : OFString) (field : Option OFString)
    (h : absentOrEmpty field) : formatName label field = some [] := by
  rcases h with h | h <;> subst h <;> rfl

/-- The annotation scan leaves the flag `_bIncludeBevestigingDoor` as it was
when no text value holds the confirmation text. -/
theorem scanAnnotations_keeps_flag (g : List AnnotationItem)
    (hg : ∀ pItem ∈ g,
      (find (pItem.unformattedTextValue.getD []) "evestigd".toList).isSome = false) :
    ∀ (i : Nat) (st : ScanState),
      (∀ b, scanAnnotations i g st = ScanResult.alreadyAmended b →
        b = st.bIncludeBevestigingDoor) ∧
      (∀ st2, scanAnnotations i g st = ScanResult.completed st2 →
        st2.bIncludeBevestigingDoor = st.bIncludeBevestigingDoor) := by
  induction g with
  | nil =>
    intro i st
    constructor
    · intro b h
      simp [scanAnnotations] at h
    · intro st2 h
      simp only [scanAnnotations, ScanResult.completed.injEq] at h
      rw [← h]
  | cons pItem rest ih =>
    intro i st
    have hrest := ih (fun q hq => hg q (List.mem_cons_of_mem _ hq))
    have hhead := hg pItem (List.mem_cons_self _ _)
    unfold scanAnnotations
    cases ht : pItem.unformattedTextValue with
    | none =>
      simp only
      exact hrest _ _
    | some v =>
      rw [ht] at hhead
      simp only [Option.getD_some] at hhead
      simp only [hhead, Bool.false_eq_true, if_false]
      split
      · constructor
        · intro b h
          cases h
          rfl
        · intro st2 h
          cases h
      · exact hrest _ _

/-- The flag at the end of the part of a run that follows the pushes, when no
text value holds the confirmation text. -/
theorem amendWithStack_keeps_flag (opts : Options) (saveOk b : Bool) (ds : Dataset)
    (pushed : List OFString) (hconf : noConfirmationText ds) :
    (amendWithStack opts saveOk b ds pushed).bIncludeBevestigingDoor = b := by
  by_cases h : pushed.length ≤ 1
  · rw [amendWithStack_of_short opts saveOk b ds pushed h]
  · by_cases hw : (ds.waveformSequence.getD []).length = 0
    · rw [amendWithStack_of_no_waveform opts saveOk b ds pushed h hw]
    · rw [amendWithStack_of_waveform opts saveOk b ds pushed h hw]
      have hk := scanAnnotations_keeps_flag (ds.waveformAnnotationSequence.getD []) hconf 0
        ⟨none, none, b⟩
      unfold spliceAnnotations
      cases hscan : scanAnnotations 0 (ds.waveformAnnotationSequence.getD []) ⟨none, none, b⟩ with
      | alreadyAmended b2 => exact hk.1 b2 hscan
      | completed st =>
        have := hk.2 st hscan
        cases saveOk <;> exact this

/-- C1, as the code has it: for a record with an accepted class, none of the
five source fields and no annotation text that holds the confirmation text
"evestigd", the stack holds the separator and the line
"Bevestigd door: Onbevestigd", so the run does not stop with the "no changes"
warning; it ends with the missing-tag error, the "already amended" warning,
success or the save failure, in the first two the record is neither changed
nor written, and the flag `_bIncludeBevestigingDoor` is still set when the run
ends. -/
theorem no_source_fields (opts : Options) (saveOk : Bool) (ds : Dataset)
    (hc : ∃ u ∈ acceptedSOPClasses, ds.sopClassUID = some u)
    (h1 : absentOrEmpty ds.visitComments) (h2 : absentOrEmpty ds.operatorsName)
    (h3 : absentOrEmpty ds.referringPhysicianName) (h4 : absentOrEmpty ds.physiciansOfRecord)
    (h5 : absentOrEmpty ds.nameOfPhysiciansReadingStudy)
    (hconf : noConfirmationText ds) :
    assembleStack true ds = some [ofstrOnbevestigd, ofstrAnnotationSeparator] ∧
    ∃ out, amend opts saveOk ds = some out ∧
      out.result ≠ RESULT_WARN_NO_CHANGES ∧
      (out.result = RESULT_ERROR_MISSING_TAG ∨ out.result = RESULT_WARN_ALREADY_AMENDED ∨
        out.result = RESULT_SUCCESS ∨ out.result = RESULT_FAILED_TO_CREATE) ∧
      (out.result = RESULT_ERROR_MISSING_TAG ∨ out.result = RESULT_WARN_ALREADY_AMENDED →
        out.dataset = ds ∧ out.serialized = false) ∧
      out.bIncludeBevestigingDoor = true := by
  have hs : assembleStack true ds = some [ofstrOnbevestigd, ofstrAnnotationSeparator] := by
    have e1 : formatVisitComments ds.visitComments = [] := by
      rcases h1 with h | h <;> rw [h] <;> rfl
    have e5 : formatReadingPhysician true ds.nameOfPhysiciansReadingStudy
        = some ofstrOnbevestigd := by
      rcases h5 with h | h <;> rw [h] <;> rfl
    unfold assembleStack
    rw [e1, formatName_absentOrEmpty _ _ h2, formatName_absentOrEmpty _ _ h3,
      formatName_absentOrEmpty _ _ h4, e5]
    rfl
  refine ⟨hs, ?_⟩
  obtain ⟨u, hu, hds⟩ := hc
  have hw : wrongSOPClass (ds.sopClassUID.getD []) = false := by
    rw [wrongSOPClass_eq_false_iff, hds]; exact hu
  have hflag := amendWithStack_keeps_flag opts saveOk true ds
    [ofstrOnbevestigd, ofstrAnnotationSeparator] hconf
  refine ⟨amendWithStack opts saveOk true ds [ofstrOnbevestigd, ofstrAnnotationSeparator],
    ?_, ?_⟩
  · unfold amend amendFrom
    rw [hw, hs]
    rfl
  · rcases amendWithStack_result opts saveOk true ds
        [ofstrOnbevestigd, ofstrAnnotationSeparator] with h | h | h | h | h
    · exact absurd h.2.1 (by decide)
    · rw [h.1]; exact ⟨by decide, Or.inl rfl, fun _ => h.2, hflag⟩
    · rw [h.1]; exact ⟨by decide, Or.inr (Or.inl rfl), fun _ => h.2, hflag⟩
    · rw [h.1]
      exact ⟨by decide, Or.inr (Or.inr (Or.inl rfl)), fun h => absurd h (by decide), hflag⟩
    · rw [h.1]
      exact ⟨by decide, Or.inr (Or.inr (Or.inr rfl)), fun h => absurd h (by decide), hflag⟩

/-- C1 as stated fails: a record of an accepted class without any of the five
source fields, and with no annotation text at all, is amended (two items are
added, success is returned and the record is written), it does not stop with
the "no changes" warning. -/
theorem no_source_fields_counterexample :
    amend ⟨false, false, false⟩ true
        ⟨some "1.2.840.10008.5.1.4.1.1.9.1.1".toList, none, none, none, none, none,
          some [⟨some "ORIGINAL".toList, some 12⟩], some []⟩
      = some ⟨RESULT_SUCCESS,
          ⟨some "1.2.840.10008.5.1.4.1.1.9.1.1".toList, none, none, none, none, none,
            some [⟨some "ORIGINAL".toList, some 12⟩],
            some [⟨some ['1', backslashChar, '0'], some "0".toList,
                    some "Bevestigd door: Onbevestigd".toList⟩,
                  ⟨some ['1', backslashChar, '0'], some "0".toList, some "-+-".toList⟩]⟩,
          true, true⟩ := by
  decide

theorem no_source_fields_witness :
    noConfirmationText
      ⟨some "1.2.840.10008.5.1.4.1.1.9.1.1".toList, none, some [], none, none, none,
        some [⟨some "ORIGINAL".toList, some 12⟩], some [itemX, itemY]⟩ ∧
    ∃ out, amend ⟨false, false, false⟩ true
        ⟨some "1.2.840.10008.5.1.4.1.1.9.1.1".toList, none, some [], none, none, none,
          some [⟨some "ORIGINAL".toList, some 12⟩], some [itemX, itemY]⟩ = some out ∧
      out.result ≠ RESULT_WARN_NO_CHANGES ∧ out.bIncludeBevestigingDoor = true :=
  ⟨by decide,
   let ⟨out, h, hne, _, _, hflag⟩ := (no_source_fields ⟨false, false, false⟩ true
    ⟨some "1.2.840.10008.5.1.4.1.1.9.1.1".toList, none, some [], none, none, none,
      some [⟨some "ORIGINAL".toList, some 12⟩], some [itemX, itemY]⟩
    ⟨_, by decide, rfl⟩ (Or.inl rfl) (Or.inr rfl) (Or.inl rfl) (Or.inl rfl) (Or.inl rfl)
    (by decide)).2
   ⟨out, h, hne, hflag⟩⟩

/-! ## The classifier guard -/

/-- C3: a record whose SOPClassUID is missing, empty or none of the three accepted
classes ends with the classification error and is left as it was, whatever
else it holds; a record with an accepted class never ends with that error. -/
theorem classifier_guard (opts : Options) (saveOk : Bool) (ds : Dataset) :
    ((ds.sopClassUID = none ∨ ds.sopClassUID = some [] ∨
        ∀ u ∈ acceptedSOPClasses, ds.sopClassUID ≠ some u) →
      amend opts saveOk ds = some ⟨RESULT_ERROR_WRONGSOP_CLASS, ds, false, true⟩) ∧
    ((∃ u ∈ acceptedSOPClasses, ds.sopClassUID = some u) →
      ∀ out, amend opts saveOk ds = some out → out.result ≠ RESULT_ERROR_WRONGSOP_CLASS) := by
  constructor
  · intro h
    have hw : wrongSOPClass (ds.sopClassUID.getD []) = true := by
      rw [← Bool.not_eq_false, wrongSOPClass_eq_false_iff]
      intro hmem
      rcases h with h | h | h
      · rw [h] at hmem; revert hmem; decide
      · rw [h] at hmem; revert hmem; decide
      · cases hs : ds.sopClassUID with
        | none => rw [hs] at hmem; revert hmem; decide
        | some v =>
          rw [hs] at hmem
          exact h v hmem hs
    unfold amend amendFrom
    rw [hw]
    rfl
  · rintro ⟨u, hu, hds⟩ out hout
    have hw : wrongSOPClass (ds.sopClassUID.getD []) = false := by
      rw [wrongSOPClass_eq_false_iff, hds]; exact hu
    unfold amend amendFrom at hout
    rw [hw] at hout
    simp only [Bool.false_eq_true, if_false] at hout
    split at hout
    · cases hout
    · rename_i pushed _
      cases hout
      rcases amendWithStack_result opts saveOk true ds pushed with
        h | h | h | h | h <;> rw [h.1] <;> decide

theorem classifier_guard_witness :
    amend ⟨false, false, false⟩ true
        ⟨some "1.2.840.10008.5.1.4.1.1.7".toList, some "c".toList, none, none, none, none,
          some [⟨none, none⟩], none⟩
      = some ⟨RESULT_ERROR_WRONGSOP_CLASS,
          ⟨some "1.2.840.10008.5.1.4.1.1.7".toList, some "c".toList, none, none, none, none,
            some [⟨none, none⟩], none⟩, false, true⟩ ∧
    ∀ out, amend ⟨false, false, false⟩ true
        ⟨some "1.2.840.10008.5.1.4.1.1.9.1.2".toList, some "c".toList, none, none, none, none,
          some [⟨none, none⟩], none⟩ = some out → out.result ≠ RESULT_ERROR_WRONGSOP_CLASS :=
  ⟨(classifier_guard _ _ _).1 (Or.inr (Or.inr (by decide))),
   (classifier_guard _ _ _).2 ⟨_, by decide, rfl⟩⟩

/-! ## The merge option -/

/-- C5, as the code has it: three non-empty lines pushed after the separator
are merged into one entry, the separator first, joined by CR LF in push
order. -/
theorem merge_three_lines (A B C : OFString) (hA : A ≠ []) (hB : B ≠ []) (hC : C ≠ []) :
    mergeLines (pushNonEmpty (pushNonEmpty (pushNonEmpty [ofstrAnnotationSeparator] A) B) C)
      = [ofstrAnnotationSeparator ++ crlf ++ A ++ crlf ++ B ++ crlf ++ C] := by
  have e : ∀ l : OFString, l ≠ [] → l.isEmpty = false := by
    intro l hl; cases l <;> simp_all
  simp [pushNonEmpty, e A hA, e B hB, e C hC, mergeLines, mergeLoop, hA, hB, hC, crlf]

theorem merge_three_lines_witness :
    mergeLines (pushNonEmpty (pushNonEmpty (pushNonEmpty [ofstrAnnotationSeparator]
        "Testind: a".toList) "Technicus: b".toList) "Verwezen door: c".toList)
      = [ofstrAnnotationSeparator ++ crlf ++ "Testind: a".toList ++ crlf
          ++ "Technicus: b".toList ++ crlf ++ "Verwezen door: c".toList] :=
  merge_three_lines _ _ _ (by decide) (by decide) (by decide)

/-- C5 as stated fails: for the lines a, b, c the merged entry is not
a CR LF b CR LF c, it starts with the separator line. -/
theorem merge_three_lines_counterexample :
    "a".toList ≠ [] ∧ "b".toList ≠ [] ∧ "c".toList ≠ [] ∧
    mergeLines (pushNonEmpty (pushNonEmpty (pushNonEmpty [ofstrAnnotationSeparator]
        "a".toList) "b".toList) "c".toList)
      ≠ ["a".toList ++ crlf ++ "b".toList ++ crlf ++ "c".toList] ∧
    mergeLines (pushNonEmpty (pushNonEmpty (pushNonEmpty [ofstrAnnotationSeparator]
        "a".toList) "b".toList) "c".toList)
      = ["-+-".toList ++ crlf ++ "a".toList ++ crlf ++ "b".toList ++ crlf ++ "c".toList] := by
  decide

/-! ## The position of the new items -/

theorem scanAnnotations_first (g : List AnnotationItem) :
    ∀ (i : Nat) (st st2 : ScanState), scanAnnotations i g st = ScanResult.completed st2 →
      st2.iFirstNonTextItem =
        match st.iFirstNonTextItem with
        | some j => some j
        | none => if firstTextless g < g.length then some (i + firstTextless g) else none := by
  induction g with
  | nil =>
    intro i st st2 h
    simp only [scanAnnotations, ScanResult.completed.injEq] at h
    subst h
    cases st.iFirstNonTextItem <;> simp [firstTextless]
  | cons pItem rest ih =>
    intro i st st2 h
    unfold scanAnnotations at h
    cases ht : pItem.unformattedTextValue with
    | some v =>
      rw [ht] at h
      simp only at h
      split at h
      · cases h
      · have := ih _ _ _ h
        rw [this]
        cases st.iFirstNonTextItem with
        | some j => rfl
        | none =>
          simp only [firstTextless, List.findIdx_cons, ht, Option.isNone_some, cond_false,
            List.length_cons, Nat.add_lt_add_iff_right]
          split
          · congr 1; omega
          · rfl
    | none =>
      rw [ht] at h
      simp only at h
      have := ih _ _ _ h
      rw [this]
      cases st.iFirstNonTextItem with
      | some j => rfl
      | none =>
        simp [firstTextless, List.findIdx_cons, ht]

theorem insertLines_append (t : AnnotationItem) (stack : List OFString) :
    ∀ seq : List AnnotationItem,
      insertLines t none stack seq = seq ++ stack.map (cloneWithText t) := by
  induction stack with
  | nil => intro seq; simp [insertLines]
  | cons line rest ih =>
    intro seq
    simp [insertLines, seqInsertBefore, ih]

theorem insertLines_before (t : AnnotationItem) (pre post : List AnnotationItem)
    (hpost : post ≠ []) (stack : List OFString) :
    ∀ acc : List AnnotationItem,
      insertLines t (some pre.length) stack (pre ++ acc ++ post)
        = pre ++ (stack.reverse.map (cloneWithText t) ++ acc) ++ post := by
  induction stack with
  | nil => intro acc; simp [insertLines]
  | cons line rest ih =>
    intro acc
    have hlt : pre.length < (pre ++ acc ++ post).length := by
      have : 0 < post.length := List.length_pos.mpr hpost
      simp only [List.length_append]; omega
    have hstep : seqInsertBefore (pre ++ acc ++ post) (cloneWithText t line) (some pre.length)
        = pre ++ (cloneWithText t line :: acc) ++ post := by
      unfold seqInsertBefore
      simp only []
      rw [if_pos hlt, List.append_assoc, List.take_left, List.drop_left]
      simp
    simp only [insertLines, hstep, ih]
    simp

/-- The annotation sequence after the insertion loop, for the position the
scan has found. -/
theorem insertLines_scan (t : AnnotationItem) (g : List AnnotationItem) (b : Bool)
    (st : ScanState) (stack : List OFString)
    (h : scanAnnotations 0 g ⟨none, none, b⟩ = ScanResult.completed st) :
    insertLines t st.iFirstNonTextItem stack g
      = g.take (firstTextless g)
        ++ (if firstTextless g < g.length then stack.reverse else stack).map (cloneWithText t)
        ++ g.drop (firstTextless g) := by
  have hfirst := scanAnnotations_first g 0 _ _ h
  simp only [Nat.zero_add] at hfirst
  rw [hfirst]
  by_cases hk : firstTextless g < g.length
  · simp only [hk, if_true]
    have hpost : g.drop (firstTextless g) ≠ [] := by
      intro h0
      have := congrArg List.length h0
      simp only [List.length_drop, List.length_nil] at this
      omega
    have hlen : (g.take (firstTextless g)).length = firstTextless g := by
      simp only [List.length_take]; omega
    have := insertLines_before t (g.take (firstTextless g)) (g.drop (firstTextless g)) hpost
      stack []
    rw [hlen] at this
    simpa using this
  · simp only [hk, if_false]
    have hk2 : g.length ≤ firstTextless g := by omega
    rw [insertLines_append, List.take_of_length_le hk2, List.drop_eq_nil_of_le hk2]
    simp
/-- A successful run has passed every guard: it is the annotation part, run on
the assembled stack. -/
theorem amend_success (opts : Options) (saveOk : Bool) (ds : Dataset) (out : Outcome)
    (h : amend opts saveOk ds = some out) (hok : out.result = RESULT_SUCCESS) :
    ∃ pushed, assembleStack true ds = some pushed ∧ 1 < pushed.length ∧
      ¬ (ds.waveformSequence.getD []).length = 0 ∧
      out = spliceAnnotations saveOk true ds
        (if opts.bMergeLines then mergeLines pushed else pushed)
        (scanWaveforms opts.bVerbose 0 (ds.waveformSequence.getD []) []) := by
  unfold amend amendFrom at h
  split at h
  · cases h; simp [RESULT_SUCCESS, RESULT_ERROR_WRONGSOP_CLASS] at hok
  · split at h
    · cases h
    · rename_i pushed hp
      cases h
      refine ⟨pushed, hp, ?_⟩
      by_cases hs : pushed.length ≤ 1
      · rw [amendWithStack_of_short _ _ _ _ _ hs] at hok
        simp [RESULT_SUCCESS, RESULT_WARN_NO_CHANGES] at hok
      · by_cases hw : (ds.waveformSequence.getD []).length = 0
        · rw [amendWithStack_of_no_waveform _ _ _ _ _ hs hw] at hok
          simp [RESULT_SUCCESS, RESULT_ERROR_MISSING_TAG] at hok
        · exact ⟨by omega, hw, amendWithStack_of_waveform _ _ _ _ _ hs hw⟩

/-- The data set after a successful annotation part, when the record has an
annotation sequence `g`. -/
theorem spliceAnnotations_success (saveOk b : Bool) (ds : Dataset) (stack : List OFString)
    (chans : OFString) (g : List AnnotationItem) (hg : ds.waveformAnnotationSequence = some g)
    (hok : (spliceAnnotations saveOk b ds stack chans).result = RESULT_SUCCESS) :
    ∃ st, scanAnnotations 0 g ⟨none, none, b⟩ = ScanResult.completed st ∧
      (spliceAnnotations saveOk b ds stack chans).dataset =
        withAnnotations ds (insertLines (templateItem st.pLastUnformattedTextItem chans)
          st.iFirstNonTextItem stack g) := by
  unfold spliceAnnotations at hok ⊢
  rw [hg] at hok ⊢
  simp only [Option.getD_some] at hok ⊢
  cases hscan : scanAnnotations 0 g ⟨none, none, b⟩ with
  | alreadyAmended b2 =>
    rw [hscan] at hok
    simp [RESULT_SUCCESS, RESULT_WARN_ALREADY_AMENDED] at hok
  | completed st =>
    refine ⟨st, rfl, ?_⟩
    cases saveOk
    · rw [hscan] at hok
      simp [RESULT_SUCCESS, RESULT_FAILED_TO_CREATE] at hok
    · rfl

/-- C6: after a successful run on a record with annotation sequence `g`, the
sequence is the items of `g` before the first item without text, then the new
items (one per line of the stack, each holding one of the lines), then the
other items of `g`; the rest of the record is as it was. -/
theorem insertion_position (opts : Options) (saveOk : Bool) (ds : Dataset)
    (g : List AnnotationItem) (out : Outcome)
    (hg : ds.waveformAnnotationSequence = some g)
    (hrun : amend opts saveOk ds = some out) (hok : out.result = RESULT_SUCCESS) :
    ∃ (pushed : List OFString) (newItems : List AnnotationItem),
      assembleStack true ds = some pushed ∧
      newItems.length = (if opts.bMergeLines then mergeLines pushed else pushed).length ∧
      (∀ pNew ∈ newItems, ∃ strLine ∈ (if opts.bMergeLines then mergeLines pushed else pushed),
        pNew.unformattedTextValue = some (c_str strLine)) ∧
      out.dataset = withAnnotations ds
        (g.take (firstTextless g) ++ newItems ++ g.drop (firstTextless g)) := by
  obtain ⟨pushed, hp, _, _, hout⟩ := amend_success opts saveOk ds out hrun hok
  rw [hout] at hok
  obtain ⟨st, hscan, hds⟩ := spliceAnnotations_success saveOk true ds _ _ g hg hok
  rw [insertLines_scan _ g true st _ hscan] at hds
  refine ⟨pushed, _, hp, ?_, ?_, by rw [hout]; exact hds⟩
  · split <;> simp
  · intro pNew hmem
    rw [List.mem_map] at hmem
    obtain ⟨line, hline, rfl⟩ := hmem
    refine ⟨line, ?_, rfl⟩
    split at hline
    · exact List.mem_reverse.mp hline
    · exact hline
theorem insertion_position_witness :
    firstTextless [itemX, itemY, itemZ] = 1 ∧
    ∃ (pushed : List OFString) (newItems : List AnnotationItem),
      assembleStack true (recordWith (some [itemX, itemY, itemZ])) = some pushed ∧
      newItems.length = (if false then mergeLines pushed else pushed).length ∧
      (∀ pNew ∈ newItems, ∃ strLine ∈ (if false then mergeLines pushed else pushed),
        pNew.unformattedTextValue = some (c_str strLine)) ∧
      (amendWithStack ⟨false, false, false⟩ true true (recordWith (some [itemX, itemY, itemZ]))
          ["Bevestigd door: Onbevestigd".toList, "Testind: pijn".toList, "-+-".toList]).dataset
        = withAnnotations (recordWith (some [itemX, itemY, itemZ]))
          ([itemX, itemY, itemZ].take (firstTextless [itemX, itemY, itemZ]) ++ newItems
            ++ [itemX, itemY, itemZ].drop (firstTextless [itemX, itemY, itemZ])) :=
  ⟨by decide,
   insertion_position ⟨false, false, false⟩ true (recordWith (some [itemX, itemY, itemZ]))
    [itemX, itemY, itemZ] _ rfl (by decide) (by decide)⟩

/-! ## The order of the new items -/

/-- C7 at a failing input: with the merge option off and an annotation
sequence whose only item has a text value, the new lines are appended in pop
order, the reverse of the push order, and the separator comes last; with a
textless item in the sequence the same lines come in push order after the
separator. -/
theorem inserted_order_when_appended :
    (amend ⟨false, false, false⟩ true (recordWith (some [itemX]))).map
        (fun out => (out.result, annotationTexts out.dataset))
      = some (RESULT_SUCCESS,
          [some "Sinusritme", some "Bevestigd door: Onbevestigd", some "Testind: pijn",
           some "-+-"]) ∧
    (amend ⟨false, false, false⟩ true (recordWith (some [itemX, itemY]))).map
        (fun out => (out.result, annotationTexts out.dataset))
      = some (RESULT_SUCCESS,
          [some "Sinusritme", some "-+-", some "Testind: pijn",
           some "Bevestigd door: Onbevestigd", none]) := by
  decide

/-! ## A second run on a record that has an annotation sequence -/

theorem scanAnnotations_alreadyAmended (seq : List AnnotationItem)
    (h : ∃ pItem ∈ seq, ∃ v, pItem.unformattedTextValue = some v ∧
      (find v ofstrAnnotationSeparator).isSome = true) :
    ∀ i st, ∃ b, scanAnnotations i seq st = ScanResult.alreadyAmended b := by
  induction seq with
  | nil =>
    obtain ⟨pItem, hmem, _⟩ := h
    simp at hmem
  | cons pItem rest ih =>
    intro i st
    unfold scanAnnotations
    cases ht : pItem.unformattedTextValue with
    | none =>
      simp only
      apply ih
      obtain ⟨q, hq, v, hv, hfind⟩ := h
      rcases List.mem_cons.mp hq with hq | hq
      · subst hq; rw [ht] at hv; cases hv
      · exact ⟨q, hq, v, hv, hfind⟩
    | some w =>
      simp only
      split
      · exact ⟨_, rfl⟩
      · rename_i hw
        apply ih
        obtain ⟨q, hq, v, hv, hfind⟩ := h
        rcases List.mem_cons.mp hq with hq | hq
        · subst hq
          rw [ht] at hv
          cases hv
          exact absurd hfind hw
        · exact ⟨q, hq, v, hv, hfind⟩

theorem find_separator_append (r : OFString) :
    (find (c_str (ofstrAnnotationSeparator ++ r)) ofstrAnnotationSeparator).isSome = true := by
  have e : c_str (ofstrAnnotationSeparator ++ r) = ofstrAnnotationSeparator ++ c_str r := by
    simp [c_str, ofstrAnnotationSeparator, List.takeWhile, nulChar]
  rw [e]
  simp [find, findFrom, ofstrAnnotationSeparator, List.isPrefixOf]

theorem pushNonEmpty_ends (xs : List OFString) (line : OFString) :
    ∃ ys, pushNonEmpty (xs ++ [ofstrAnnotationSeparator]) line
      = ys ++ [ofstrAnnotationSeparator] := by
  unfold pushNonEmpty
  split
  · exact ⟨xs, rfl⟩
  · exact ⟨line :: xs, rfl⟩

/-- The separator is the bottom of every assembled stack. -/
theorem assembleStack_ends (b : Bool) (ds : Dataset) (pushed : List OFString)
    (h : assembleStack b ds = some pushed) :
    ∃ xs, pushed = xs ++ [ofstrAnnotationSeparator] := by
  unfold assembleStack at h
  simp only at h
  split at h
  · cases h
  · split at h
    · cases h
    · split at h
      · cases h
      · split at h
        · cases h
        · cases h
          obtain ⟨x1, h1⟩ := pushNonEmpty_ends [] (formatVisitComments ds.visitComments)
          rw [List.nil_append] at h1
          rw [h1]
          rename_i l2 _ _ l3 _ _ l4 _ _ l5 _
          obtain ⟨x2, h2⟩ := pushNonEmpty_ends x1 l2
          rw [h2]
          obtain ⟨x3, h3⟩ := pushNonEmpty_ends x2 l3
          rw [h3]
          obtain ⟨x4, h4⟩ := pushNonEmpty_ends x3 l4
          rw [h4]
          exact pushNonEmpty_ends x4 l5

theorem mergeLoop_append (xs ys : List OFString) :
    ∀ acc, mergeLoop (xs ++ ys) acc = mergeLoop ys (mergeLoop xs acc) := by
  induction xs with
  | nil => intro acc; rfl
  | cons x xs ih =>
    intro acc
    rw [List.cons_append, mergeLoop, mergeLoop, ih]

/-- Every stack that is inserted holds a line in which the separator is
found. -/
theorem stack_has_separator (b merge : Bool) (ds : Dataset) (pushed : List OFString)
    (h : assembleStack b ds = some pushed) :
    ∃ strLine ∈ (if merge then mergeLines pushed else pushed),
      (find (c_str strLine) ofstrAnnotationSeparator).isSome = true := by
  obtain ⟨xs, rfl⟩ := assembleStack_ends b ds pushed h
  cases merge with
  | false =>
    refine ⟨ofstrAnnotationSeparator, by simp, ?_⟩
    have := find_separator_append []
    simpa using this
  | true =>
    refine ⟨mergeLoop (xs ++ [ofstrAnnotationSeparator]) [], by simp [mergeLines], ?_⟩
    rw [mergeLoop_append]
    simp only [mergeLoop]
    split
    · have := find_separator_append []
      simpa using this
    · rw [List.append_assoc]
      exact find_separator_append _

/-- Idempotence where the new items reach the record: after a successful run
on a record with an annotation sequence, a second run on the written record,
under any options, ends with the "already amended" warning and leaves the
record as it is. -/
theorem second_run_with_sequence (opts opts2 : Options) (saveOk saveOk2 : Bool) (ds : Dataset)
    (g : List AnnotationItem) (out : Outcome)
    (hg : ds.waveformAnnotationSequence = some g)
    (hrun : amend opts saveOk ds = some out) (hok : out.result = RESULT_SUCCESS) :
    ∃ b, amend opts2 saveOk2 out.dataset
      = some ⟨RESULT_WARN_ALREADY_AMENDED, out.dataset, false, b⟩ := by
  obtain ⟨pushed, hp, hlen, hwave, hout⟩ := amend_success opts saveOk ds out hrun hok
  have hok2 := hok
  rw [hout] at hok2
  obtain ⟨st, hscan, hds⟩ := spliceAnnotations_success saveOk true ds _ _ g hg hok2
  rw [insertLines_scan _ g true st _ hscan, ← hout] at hds
  have hclass : wrongSOPClass (ds.sopClassUID.getD []) = false := by
    unfold amend amendFrom at hrun
    split at hrun
    · cases hrun
      simp [RESULT_SUCCESS, RESULT_ERROR_WRONGSOP_CLASS] at hok
    · rename_i hc
      simpa using hc
  obtain ⟨line, hline, hfind⟩ := stack_has_separator true opts.bMergeLines ds pushed hp
  have hscan2 := scanAnnotations_alreadyAmended
    (g.take (firstTextless g)
      ++ (if firstTextless g < g.length
            then (if opts.bMergeLines then mergeLines pushed else pushed).reverse
            else (if opts.bMergeLines then mergeLines pushed else pushed)).map
          (cloneWithText (templateItem st.pLastUnformattedTextItem
            (scanWaveforms opts.bVerbose 0 (ds.waveformSequence.getD []) [])))
      ++ g.drop (firstTextless g))
    ⟨cloneWithText _ line, by
      simp only [List.mem_append, List.mem_map]
      refine Or.inl (Or.inr ⟨line, ?_, rfl⟩)
      split
      · exact List.mem_reverse.mpr hline
      · exact hline, c_str line, rfl, hfind⟩ 0 ⟨none, none, true⟩
  obtain ⟨b, hb⟩ := hscan2
  refine ⟨b, ?_⟩
  rw [hds]
  unfold amend amendFrom
  have e1 : ∀ seq, (withAnnotations ds seq).sopClassUID = ds.sopClassUID := fun _ => rfl
  have e2 : ∀ seq, assembleStack true (withAnnotations ds seq) = assembleStack true ds :=
    fun _ => rfl
  rw [e1, hclass, e2, hp]
  simp only [Bool.false_eq_true, if_false]
  rw [amendWithStack_of_waveform _ _ _ _ _ (by omega) (by exact hwave)]
  unfold spliceAnnotations
  simp only [withAnnotations, Option.getD_some]
  rw [hb]

/-! ## The reading-physician line -/

theorem snprintfST_label (label arg : OFString) (h : label.length ≤ 1023) :
    label <+: snprintfST label arg := by
  unfold snprintfST
  rw [List.take_append_eq_append_take, List.take_of_length_le h]
  exact List.prefix_append _ _

theorem formatReadingPhysician_label (field : Option OFString) (line : OFString)
    (h : formatReadingPhysician true field = some line) :
    "Bevestigd door: ".toList <+: line := by
  unfold formatReadingPhysician at h
  split at h
  · split at h
    · cases h; decide
    · simp only [if_true, Option.map_eq_some'] at h
      obtain ⟨name, _, rfl⟩ := h
      exact snprintfST_label _ _ (by decide)
  · cases h; decide

/-- Every run, started with the flag at its initial value, pushes a
reading-physician line last: the top of the stack starts with
"Bevestigd door: ", whatever the annotation sequence holds, and the stack has
more than one entry. -/
theorem reading_line_on_top (ds : Dataset) (pushed : List OFString)
    (h : assembleStack true ds = some pushed) :
    ∃ (line : OFString) (rest : List OFString), pushed = line :: rest ∧
      "Bevestigd door: ".toList <+: line ∧ 1 < pushed.length := by
  obtain ⟨xs, hxs⟩ := assembleStack_ends true ds pushed h
  unfold assembleStack at h
  simp only at h
  split at h
  · cases h
  · split at h
    · cases h
    · split at h
      · cases h
      · split at h
        · cases h
        · rename_i line hline
          have hlabel := formatReadingPhysician_label _ _ hline
          have hne : line.isEmpty = false := by
            obtain ⟨t, ht⟩ := hlabel
            rw [← ht]
            rfl
          cases h
          rw [pushNonEmpty, hne] at hxs ⊢
          simp only [Bool.false_eq_true, if_false] at hxs ⊢
          refine ⟨line, _, rfl, hlabel, ?_⟩
          cases xs with
          | nil =>
            simp only [List.nil_append, List.cons.injEq] at hxs
            rw [hxs.1] at hlabel
            exact absurd hlabel (by decide)
          | cons x xs =>
            have := congrArg List.length hxs
            simp only [List.length_cons, List.cons_append, List.length_append,
              List.length_nil] at this ⊢
            omega

/-- No run ends with the "no changes" warning. -/
theorem amend_not_no_changes (opts : Options) (saveOk : Bool) (ds : Dataset) (out : Outcome)
    (h : amend opts saveOk ds = some out) : out.result ≠ RESULT_WARN_NO_CHANGES := by
  unfold amend amendFrom at h
  split at h
  · cases h
    simp [RESULT_ERROR_WRONGSOP_CLASS, RESULT_WARN_NO_CHANGES]
  · split at h
    · cases h
    · rename_i pushed hp
      cases h
      obtain ⟨_, _, _, _, hlen⟩ := reading_line_on_top ds pushed hp
      rcases amendWithStack_result opts saveOk true ds pushed with r | r | r | r | r
      · omega
      all_goals (rw [r.1]; decide)

/-! ## The channel reference of the dummy -/

theorem scanWaveforms_not_verbose (ws : List WaveformItem) :
    ∀ (i : Nat) (chans : OFString), scanWaveforms false i ws chans = chans := by
  induction ws with
  | nil => intro i chans; rfl
  | cons w ws ih =>
    intro i chans
    rw [scanWaveforms]
    simp only [Bool.false_and, Bool.false_eq_true, if_false]
    exact ih _ _

/-- Without the verbose flag the dummy refers to waveform group 1, whatever
the waveform groups are. -/
theorem templateItem_not_verbose (ws : List WaveformItem) :
    templateItem none (scanWaveforms false 0 ws []) = dummyAnnotation channelsOfGroup1 := by
  rw [scanWaveforms_not_verbose]
  rfl

/-! ## Name normalization -/

theorem replicate_caret_cons (n : Nat) (cs : OFString) :
    List.replicate n '^' ++ '^' :: cs = List.replicate (n + 1) '^' ++ cs := by
  rw [List.replicate_succ', List.append_assoc]
  rfl

theorem replaceScan_zero_cons (pattern rpl : OFString) (c : Char) (cs : OFString) :
    replaceScan pattern rpl 0 (c :: cs)
      = if pattern.isPrefixOf (c :: cs) then
          rpl ++ replaceScan pattern rpl (pattern.length - 1) cs
        else c :: replaceScan pattern rpl 0 cs := by
  rw [replaceScan]

theorem replaceScan_succ_cons (pattern rpl : OFString) (k : Nat) (c : Char) (cs : OFString) :
    replaceScan pattern rpl (k + 1) (c :: cs) = replaceScan pattern rpl k cs := by
  rw [replaceScan]

theorem caret_isPrefixOf_cons (pattern : OFString) (c : Char) (cs : OFString) (hc : c ≠ '^') :
    ('^' :: pattern).isPrefixOf (c :: cs) = false := by
  have : ¬ '^' = c := fun h => hc h.symm
  simp [List.isPrefixOf, this]

theorem caret_isPrefixOf_of_head (pattern rest : OFString) (hrest : rest.head? ≠ some '^') :
    ('^' :: pattern).isPrefixOf rest = false := by
  cases rest with
  | nil => rfl
  | cons d r =>
    apply caret_isPrefixOf_cons
    intro h
    apply hrest
    rw [h]
    rfl

theorem replaceScan3_cons (c : Char) (cs : OFString) (hc : c ≠ '^') :
    replaceScan ofstrCaret3 ofstrCaret 0 (c :: cs)
      = c :: replaceScan ofstrCaret3 ofstrCaret 0 cs := by
  rw [replaceScan_zero_cons, ofstrCaret3, caret_isPrefixOf_cons _ _ _ hc]
  rfl

theorem replaceScan3_run (rest : OFString) (hrest : rest.head? ≠ some '^') :
    ∀ n, replaceScan ofstrCaret3 ofstrCaret 0 (List.replicate n '^' ++ rest)
      = List.replicate (afterCaret3 n) '^' ++ replaceScan ofstrCaret3 ofstrCaret 0 rest := by
  have h1 : replaceScan ofstrCaret3 ofstrCaret 0 ('^' :: rest)
      = '^' :: replaceScan ofstrCaret3 ofstrCaret 0 rest := by
    rw [replaceScan_zero_cons]
    have : ofstrCaret3.isPrefixOf ('^' :: rest) = false := by
      simp only [ofstrCaret3, List.isPrefixOf, beq_self_eq_true, Bool.true_and]
      exact caret_isPrefixOf_of_head _ _ hrest
    rw [this]
    rfl
  have h2 : replaceScan ofstrCaret3 ofstrCaret 0 ('^' :: '^' :: rest)
      = '^' :: '^' :: replaceScan ofstrCaret3 ofstrCaret 0 rest := by
    rw [replaceScan_zero_cons]
    have : ofstrCaret3.isPrefixOf ('^' :: '^' :: rest) = false := by
      simp only [ofstrCaret3, List.isPrefixOf, beq_self_eq_true, Bool.true_and]
      exact caret_isPrefixOf_of_head _ _ hrest
    rw [this, ← h1]
    rfl
  intro n
  induction n using Nat.strong_induction_on with
  | _ n ih =>
    match n with
    | 0 => simp [afterCaret3]
    | 1 => simpa [afterCaret3] using h1
    | 2 => simpa [afterCaret3, List.replicate] using h2
    | k + 3 =>
      have e : afterCaret3 (k + 3) = afterCaret3 k + 1 := by
        simp only [afterCaret3]; omega
      rw [e, show List.replicate (afterCaret3 k + 1) '^' = '^' :: List.replicate (afterCaret3 k) '^'
        from List.replicate_succ .., List.cons_append, ← ih k (by omega)]
      simp only [List.replicate_succ, List.cons_append]
      rw [replaceScan_zero_cons]
      have : ofstrCaret3.isPrefixOf ('^' :: '^' :: '^' :: (List.replicate k '^' ++ rest))
          = true := by
        simp [ofstrCaret3, List.isPrefixOf]
      rw [this]
      simp only [if_true, ofstrCaret3, List.length_cons, List.length_nil]
      rw [replaceScan_succ_cons, replaceScan_succ_cons]
      rfl

theorem replaceScan2_cons (c : Char) (cs : OFString) (hc : c ≠ '^') :
    replaceScan ofstrCaret2 ofstrCaret 0 (c :: cs)
      = c :: replaceScan ofstrCaret2 ofstrCaret 0 cs := by
  rw [replaceScan_zero_cons, ofstrCaret2, caret_isPrefixOf_cons _ _ _ hc]
  rfl

theorem replaceScan2_run (rest : OFString) (hrest : rest.head? ≠ some '^') :
    ∀ n, replaceScan ofstrCaret2 ofstrCaret 0 (List.replicate n '^' ++ rest)
      = List.replicate (afterCaret2 n) '^' ++ replaceScan ofstrCaret2 ofstrCaret 0 rest := by
  have h1 : replaceScan ofstrCaret2 ofstrCaret 0 ('^' :: rest)
      = '^' :: replaceScan ofstrCaret2 ofstrCaret 0 rest := by
    rw [replaceScan_zero_cons]
    have : ofstrCaret2.isPrefixOf ('^' :: rest) = false := by
      simp only [ofstrCaret2, List.isPrefixOf, beq_self_eq_true, Bool.true_and]
      exact caret_isPrefixOf_of_head _ _ hrest
    rw [this]
    rfl
  intro n
  induction n using Nat.strong_induction_on with
  | _ n ih =>
    match n with
    | 0 => simp [afterCaret2]
    | 1 => simpa [afterCaret2] using h1
    | k + 2 =>
      have e : afterCaret2 (k + 2) = afterCaret2 k + 1 := by
        simp only [afterCaret2]; omega
      rw [e, show List.replicate (afterCaret2 k + 1) '^' = '^' :: List.replicate (afterCaret2 k) '^'
        from List.replicate_succ .., List.cons_append, ← ih k (by omega)]
      simp only [List.replicate_succ, List.cons_append]
      rw [replaceScan_zero_cons]
      have : ofstrCaret2.isPrefixOf ('^' :: '^' :: (List.replicate k '^' ++ rest)) = true := by
        simp [ofstrCaret2, List.isPrefixOf]
      rw [this]
      simp only [if_true, ofstrCaret2, List.length_cons, List.length_nil]
      rw [replaceScan_succ_cons]
      rfl
theorem scan_eq_mapRuns (P : OFString → OFString) (f : Nat → Nat) (hnil : P [] = [])
    (hcons : ∀ c cs, c ≠ '^' → P (c :: cs) = c :: P cs)
    (hrun : ∀ rest : OFString, rest.head? ≠ some '^' →
      ∀ n, P (List.replicate n '^' ++ rest) = List.replicate (f n) '^' ++ P rest) :
    ∀ (s : OFString) (n : Nat), P (List.replicate n '^' ++ s) = mapRuns f n s := by
  intro s
  induction s with
  | nil =>
    intro n
    rw [hrun [] (by simp) n, hnil]
    simp [mapRuns]
  | cons c cs ih =>
    intro n
    by_cases hc : c = '^'
    · subst hc
      rw [replicate_caret_cons, ih (n + 1)]
      simp [mapRuns]
    · have hhead : (c :: cs).head? ≠ some '^' := by simpa using hc
      rw [hrun (c :: cs) hhead n, hcons c cs hc]
      have := ih 0
      simp only [List.replicate_zero, List.nil_append] at this
      rw [this]
      simp [mapRuns, hc]

theorem replaceScan3_eq_mapRuns (s : OFString) :
    replaceScan ofstrCaret3 ofstrCaret 0 s = mapRuns afterCaret3 0 s := by
  have := scan_eq_mapRuns (replaceScan ofstrCaret3 ofstrCaret 0) afterCaret3 (by rw [replaceScan])
    replaceScan3_cons replaceScan3_run s 0
  simpa using this

theorem replaceScan2_eq_mapRuns (s : OFString) :
    replaceScan ofstrCaret2 ofstrCaret 0 s = mapRuns afterCaret2 0 s := by
  have := scan_eq_mapRuns (replaceScan ofstrCaret2 ofstrCaret 0) afterCaret2 (by rw [replaceScan])
    replaceScan2_cons replaceScan2_run s 0
  simpa using this

theorem mapRuns_replicate (g : Nat → Nat) (t : OFString) :
    ∀ k m, mapRuns g m (List.replicate k '^' ++ t) = mapRuns g (m + k) t := by
  intro k
  induction k with
  | zero => intro m; simp
  | succ k ih =>
    intro m
    rw [List.replicate_succ, List.cons_append, mapRuns]
    simp only [if_true]
    rw [ih]
    congr 1
    omega

theorem mapRuns_comp (f g : Nat → Nat) (s : OFString) :
    ∀ n, mapRuns g 0 (mapRuns f n s) = mapRuns (fun k => g (f k)) n s := by
  induction s with
  | nil =>
    intro n
    have := mapRuns_replicate g [] (f n) 0
    simp only [List.append_nil, Nat.zero_add] at this
    simp only [mapRuns]
    rw [this]
    simp [mapRuns]
  | cons c cs ih =>
    intro n
    by_cases hc : c = '^'
    · subst hc
      simp only [mapRuns, if_true]
      exact ih (n + 1)
    · simp only [mapRuns, hc, if_false]
      rw [mapRuns_replicate, Nat.zero_add]
      simp only [mapRuns, hc, if_false]
      rw [ih 0]

theorem replicate_infix_of_le (k n : Nat) (rest : OFString) (h : k ≤ n) :
    List.replicate k '^' <:+: List.replicate n '^' ++ rest := by
  refine ⟨[], List.replicate (n - k) '^' ++ rest, ?_⟩
  rw [List.nil_append, ← List.append_assoc, ← List.replicate_add]
  congr 2
  omega

theorem mapRuns_congr (f g : Nat → Nat) (bound : Nat) (hfg : ∀ m, m ≤ bound → f m = g m)
    (s : OFString) :
    ∀ n, ¬ (List.replicate (bound + 1) '^' <:+: List.replicate n '^' ++ s) →
      mapRuns f n s = mapRuns g n s := by
  induction s with
  | nil =>
    intro n h
    have hn : n ≤ bound := by
      by_contra hlt
      exact h (replicate_infix_of_le _ _ _ (by omega))
    simp [mapRuns, hfg n hn]
  | cons c cs ih =>
    intro n h
    by_cases hc : c = '^'
    · subst hc
      simp only [mapRuns, if_true]
      apply ih
      rw [← replicate_caret_cons]
      exact h
    · have hn : n ≤ bound := by
        by_contra hlt
        exact h (replicate_infix_of_le _ _ _ (by omega))
      simp only [mapRuns, hc, if_false, hfg n hn]
      rw [ih 0]
      intro hin
      apply h
      simp only [List.replicate_zero, List.nil_append] at hin
      exact hin.trans ⟨List.replicate n '^' ++ [c], [], by simp⟩

theorem collapsedRun_of_le (m : Nat) (h : m ≤ 10) :
    afterCaret2 (afterCaret2 (afterCaret3 m)) = collapsedRun m := by
  interval_cases m <;> rfl

/-- The three collapsing passes leave one caret for every caret run, when no
run is longer than ten carets. -/
theorem three_passes_collapse (s : OFString) (h : ¬ (List.replicate 11 '^' <:+: s)) :
    replace_all (replace_all (replace_all s ofstrCaret3 ofstrCaret) ofstrCaret2 ofstrCaret)
        ofstrCaret2 ofstrCaret
      = mapRuns collapsedRun 0 s := by
  have e3 : ∀ t, replace_all t ofstrCaret3 ofstrCaret = mapRuns afterCaret3 0 t := by
    intro t
    rw [← replaceScan3_eq_mapRuns]
    rfl
  have e2 : ∀ t, replace_all t ofstrCaret2 ofstrCaret = mapRuns afterCaret2 0 t := by
    intro t
    rw [← replaceScan2_eq_mapRuns]
    rfl
  rw [e3, e2, e2, mapRuns_comp, mapRuns_comp]
  apply mapRuns_congr _ _ 10
  · intro m hm
    exact collapsedRun_of_le m hm
  · simpa using h
theorem replaceScan1_nil : replaceScan ofstrCaret ofstrCommaSpace 0 [] = [] := by
  rw [replaceScan]

theorem replaceScan1_caret (cs : OFString) :
    replaceScan ofstrCaret ofstrCommaSpace 0 ('^' :: cs)
      = ',' :: ' ' :: replaceScan ofstrCaret ofstrCommaSpace 0 cs := by
  rw [replaceScan_zero_cons]
  have : ofstrCaret.isPrefixOf ('^' :: cs) = true := by
    simp [ofstrCaret, List.isPrefixOf]
  rw [this]
  rfl

theorem replaceScan1_cons (c : Char) (cs : OFString) (hc : c ≠ '^') :
    replaceScan ofstrCaret ofstrCommaSpace 0 (c :: cs)
      = c :: replaceScan ofstrCaret ofstrCommaSpace 0 cs := by
  rw [replaceScan_zero_cons, ofstrCaret, caret_isPrefixOf_cons _ _ _ hc]
  rfl

theorem dropLastCaret_cons_cons (c d : Char) (t : OFString) :
    dropLastCaret (c :: d :: t) = c :: dropLastCaret (d :: t) := by
  unfold dropLastCaret
  rw [List.getLast?_cons_cons]
  cases h : (d :: t).getLast? with
  | none => simp at h
  | some last =>
    simp only [List.length_cons, Nat.add_sub_cancel]
    split
    · rw [List.take_succ_cons]
    · rfl

theorem dropLastCaret_cons (c : Char) (t : OFString) (hc : c ≠ '^') :
    dropLastCaret (c :: t) = c :: dropLastCaret t := by
  cases t with
  | nil => simp [dropLastCaret, hc]
  | cons d t => exact dropLastCaret_cons_cons c d t

theorem normScan_of_collapsed (s : OFString) :
    (∀ n, 1 ≤ n → replaceScan ofstrCaret ofstrCommaSpace 0
        (dropLastCaret (mapRuns collapsedRun n s)) = normScan true true s) ∧
    replaceScan ofstrCaret ofstrCommaSpace 0 (dropLastCaret (mapRuns collapsedRun 0 s))
      = normScan true false s := by
  induction s with
  | nil =>
    constructor
    · intro n hn
      have : collapsedRun n = 1 := by
        simp only [collapsedRun]; split <;> omega
      simp [mapRuns, this, dropLastCaret, normScan, replaceScan1_nil]
    · simp [mapRuns, collapsedRun, dropLastCaret, normScan, replaceScan1_nil]
  | cons c cs ih =>
    by_cases hc : c = '^'
    · subst hc
      constructor
      · intro n _
        simp only [mapRuns, normScan, if_true]
        exact ih.1 (n + 1) (by omega)
      · simp only [mapRuns, normScan, if_true]
        exact ih.1 1 (by omega)
    · constructor
      · intro n hn
        have : collapsedRun n = 1 := by
          simp only [collapsedRun]; split <;> omega
        simp only [mapRuns, normScan, hc, if_false, this, List.replicate_one,
          List.singleton_append, Bool.and_self, if_true]
        rw [dropLastCaret_cons_cons, dropLastCaret_cons _ _ hc, replaceScan1_caret,
          replaceScan1_cons _ _ hc, ih.2]
        rfl
      · simp only [mapRuns, normScan, hc, if_false, collapsedRun, if_true,
          List.replicate_zero, List.nil_append, Bool.and_false, Bool.false_eq_true]
        rw [dropLastCaret_cons _ _ hc, replaceScan1_cons _ _ hc, ih.2]
        rfl

theorem collapsed_shape (s : OFString) (hne : ∃ c ∈ s, c ≠ '^') :
    ∀ n, ∃ (x : Char) (xs : OFString), x ≠ '^' ∧
      (mapRuns collapsedRun n s = x :: xs ∨ mapRuns collapsedRun n s = '^' :: x :: xs) ∧
      ∀ pd, replaceScan ofstrCaret ofstrCommaSpace 0 (dropLastCaret (x :: xs))
        = normScan false pd s := by
  induction s with
  | nil =>
    obtain ⟨c, hc, _⟩ := hne
    simp at hc
  | cons c cs ih =>
    intro n
    by_cases hc : c = '^'
    · subst hc
      have hne2 : ∃ c ∈ cs, c ≠ '^' := by
        obtain ⟨d, hd, hd2⟩ := hne
        rcases List.mem_cons.mp hd with h | h
        · exact absurd h hd2
        · exact ⟨d, h, hd2⟩
      obtain ⟨x, xs, hx, hform, hnorm⟩ := ih hne2 (n + 1)
      refine ⟨x, xs, hx, ?_, ?_⟩
      · simpa [mapRuns] using hform
      · intro pd
        simpa [normScan] using hnorm true
    · refine ⟨c, mapRuns collapsedRun 0 cs, hc, ?_, ?_⟩
      · by_cases hn : n = 0
        · left; simp [mapRuns, hc, collapsedRun, hn]
        · right; simp [mapRuns, hc, collapsedRun, hn]
      · intro pd
        rw [dropLastCaret_cons _ _ hc, replaceScan1_cons _ _ hc, (normScan_of_collapsed cs).2]
        simp [normScan, hc]

/-- What `HumanReadableName` returns for a name with a character other than a
caret and no run of more than ten carets. -/
theorem HumanReadableName_eq_normScan (s : OFString) (hne : ∃ c ∈ s, c ≠ '^')
    (hrun : ¬ (List.replicate 11 '^' <:+: s)) :
    HumanReadableName s = some (normScan false false s) := by
  obtain ⟨x, xs, hx, hform, hnorm⟩ := collapsed_shape s hne 0
  rw [← three_passes_collapse s hrun] at hform
  have hlast : ∀ t : OFString, (match (x :: t).getLast? with
      | none => none
      | some last =>
        some (replace_all (if last = '^' then (x :: t).take ((x :: t).length - 1) else x :: t)
          ofstrCaret ofstrCommaSpace))
      = some (replaceScan ofstrCaret ofstrCommaSpace 0 (dropLastCaret (x :: t))) := by
    intro t
    unfold dropLastCaret
    cases h : (x :: t).getLast? with
    | none => simp at h
    | some last =>
      simp only
      split <;> rfl
  unfold HumanReadableName
  simp only
  rcases hform with h | h
  · rw [h]
    simp only [List.head?_cons, hx, if_false]
    rw [hlast, hnorm]
  · rw [h]
    simp only [List.head?_cons, if_true, List.drop_succ_cons, List.drop_zero]
    rw [hlast, hnorm]
theorem intercalate_cons (sep p : OFString) (l : List OFString) :
    List.intercalate sep (p :: l) = p ++ l.flatMap (fun q => sep ++ q) := by
  induction l generalizing p with
  | nil => simp [List.intercalate]
  | cons q l ih =>
    have := ih q
    simp only [List.intercalate] at this ⊢
    simp only [List.intersperse_cons₂, List.flatten_cons, List.flatMap_cons, this,
      List.append_assoc]

theorem splitOn_caret_cons (cs : OFString) :
    ('^' :: cs).splitOn '^' = [] :: cs.splitOn '^' := by
  simp [List.splitOn, List.splitOnP_cons]

theorem splitOn_other_cons (c : Char) (cs : OFString) (hc : c ≠ '^') :
    (c :: cs).splitOn '^' = (cs.splitOn '^').modifyHead (List.cons c) := by
  simp [List.splitOn, List.splitOnP_cons, hc]

/-- The scan `normScan` computes the expected name. -/
theorem normScan_eq_parts (s : OFString) :
    ∃ (p : OFString) (ps : List OFString), s.splitOn '^' = p :: ps ∧
      normScan true false s
        = p ++ (ps.filter (fun part => !part.isEmpty)).flatMap (fun q => ofstrCommaSpace ++ q) ∧
      normScan true true s
        = ((p :: ps).filter (fun part => !part.isEmpty)).flatMap
            (fun q => ofstrCommaSpace ++ q) ∧
      ∀ pd, normScan false pd s
        = List.intercalate ofstrCommaSpace ((p :: ps).filter (fun part => !part.isEmpty)) := by
  induction s with
  | nil =>
    refine ⟨[], [], by simp [List.splitOn], ?_, ?_, ?_⟩ <;> simp [normScan, List.intercalate]
  | cons c cs ih =>
    obtain ⟨p, ps, hsplit, h1, h2, h3⟩ := ih
    by_cases hc : c = '^'
    · subst hc
      refine ⟨[], p :: ps, by rw [splitOn_caret_cons, hsplit], ?_, ?_, ?_⟩
      · simpa [normScan] using h2
      · simpa [normScan] using h2
      · intro pd
        simpa [normScan] using h3 true
    · refine ⟨c :: p, ps, by rw [splitOn_other_cons _ _ hc, hsplit]; rfl, ?_, ?_, ?_⟩
      · simp [normScan, hc, h1]
      · simp [normScan, hc, h1]
      · intro pd
        simp only [List.filter_cons, List.isEmpty_cons, Bool.not_false, if_true]
        rw [intercalate_cons]
        simp [normScan, hc, h1]

theorem expectedName_eq_normScan (s : OFString) : expectedName s = normScan false false s := by
  obtain ⟨p, ps, hsplit, _, _, h3⟩ := normScan_eq_parts s
  rw [expectedName, hsplit, h3 false]

theorem caret_not_mem_normScan (s : OFString) :
    ∀ st pd, '^' ∉ normScan st pd s := by
  induction s with
  | nil => intro st pd; simp [normScan]
  | cons c cs ih =>
    intro st pd
    by_cases hc : c = '^'
    · subst hc
      simpa [normScan] using ih st true
    · have hc2 : ¬ '^' = c := fun h => hc h.symm
      simp only [normScan, hc, if_false]
      split <;> simp [ofstrCommaSpace, hc2, ih true false]

theorem commasDelimit_tail (c : Char) (t : OFString) (h : commasDelimit (c :: t) = true) :
    commasDelimit t = true := by
  unfold commasDelimit at h
  split at h
  · split at h
    · simp only [Bool.and_eq_true] at h
      exact h.2
    · cases h
  · exact h

theorem commasDelimit_suffix (a t : OFString) (h : commasDelimit (a ++ t) = true) :
    commasDelimit t = true := by
  induction a with
  | nil => exact h
  | cons c a ih => exact ih (commasDelimit_tail c _ h)

theorem commasDelimit_cons_of_ne (c : Char) (t : OFString) (hc : c ≠ ',') :
    commasDelimit (c :: t) = commasDelimit t := by
  conv_lhs => unfold commasDelimit
  simp only [hc, if_false]

theorem commasDelimit_comma (d e : Char) (t : OFString) :
    commasDelimit (',' :: d :: e :: t)
      = (decide (d = ' ') && decide (e ≠ ',') && commasDelimit (d :: e :: t)) := by
  conv_lhs => unfold commasDelimit
  simp only [if_true]

theorem commasDelimit_normScan (s : OFString) (hs : ',' ∉ s) :
    ∀ st pd, commasDelimit (normScan st pd s) = true := by
  induction s with
  | nil => intro st pd; simp [normScan, commasDelimit]
  | cons c cs ih =>
    have hcs : ',' ∉ cs := fun h => hs (List.mem_cons_of_mem _ h)
    have hc1 : c ≠ ',' := fun h => hs (by rw [h]; exact List.mem_cons_self _ _)
    intro st pd
    by_cases hc : c = '^'
    · subst hc
      simpa [normScan] using ih hcs st true
    · simp only [normScan, hc, if_false]
      split
      · simp only [ofstrCommaSpace, List.cons_append, List.nil_append]
        rw [commasDelimit_comma, commasDelimit_cons_of_ne _ _ (by decide),
          commasDelimit_cons_of_ne _ _ hc1, ih hcs true false]
        simp [hc1]
      · simp only [List.cons_append, List.nil_append]
        rw [commasDelimit_cons_of_ne _ _ hc1]
        exact ih hcs true false

theorem head_normScan (s : OFString) (hs : ',' ∉ s) :
    ∀ pd, (normScan false pd s).head? ≠ some ',' := by
  induction s with
  | nil => intro pd; simp [normScan]
  | cons c cs ih =>
    have hcs : ',' ∉ cs := fun h => hs (List.mem_cons_of_mem _ h)
    have hc1 : c ≠ ',' := fun h => hs (by rw [h]; exact List.mem_cons_self _ _)
    intro pd
    by_cases hc : c = '^'
    · subst hc
      simpa [normScan] using ih hcs true
    · simp [normScan, hc, hc1]
/-- C4, as the code has it: for a name with a character other than a caret and
no run of more than ten carets, `HumanReadableName` yields the non-empty parts
between carets joined with a comma and a space; the result holds no caret,
and, when the name itself holds no comma, it neither starts nor ends with a
comma and a space and holds no comma, space, comma, space. -/
theorem HumanReadableName_spec (s : OFString) (hne : ∃ c ∈ s, c ≠ '^')
    (hrun : ¬ (List.replicate 11 '^' <:+: s)) :
    HumanReadableName s = some (expectedName s) ∧
    '^' ∉ expectedName s ∧
    (',' ∉ s →
      ¬ (ofstrCommaSpace <+: expectedName s) ∧
      ¬ (ofstrCommaSpace <:+ expectedName s) ∧
      ¬ (ofstrCommaSpace ++ ofstrCommaSpace <:+: expectedName s)) := by
  rw [expectedName_eq_normScan]
  refine ⟨HumanReadableName_eq_normScan s hne hrun, caret_not_mem_normScan s false false, ?_⟩
  intro hcomma
  have hdel := commasDelimit_normScan s hcomma false false
  refine ⟨?_, ?_, ?_⟩
  · rintro ⟨t, ht⟩
    apply head_normScan s hcomma false
    rw [← ht]
    rfl
  · rintro ⟨t, ht⟩
    rw [← ht] at hdel
    have := commasDelimit_suffix _ _ hdel
    revert this
    decide
  · rintro ⟨a, b, ht⟩
    rw [← ht, List.append_assoc] at hdel
    have := commasDelimit_suffix _ _ hdel
    simp only [ofstrCommaSpace, List.cons_append, List.nil_append] at this
    rw [commasDelimit_comma] at this
    simp at this

theorem HumanReadableName_spec_witness :
    (∃ c ∈ "Smith^John^^Dr^^^".toList, c ≠ '^') ∧
    ¬ (List.replicate 11 '^' <:+: "Smith^John^^Dr^^^".toList) ∧
    expectedName "Smith^John^^Dr^^^".toList = "Smith, John, Dr".toList ∧
    HumanReadableName "Smith^John^^Dr^^^".toList
      = some (expectedName "Smith^John^^Dr^^^".toList) :=
  ⟨by decide, by decide, by decide,
   (HumanReadableName_spec "Smith^John^^Dr^^^".toList (by decide) (by decide)).1⟩

/-- C4 as stated fails.  A run of eleven carets is left as two delimiters: the
name a, eleven carets, b yields "a, , b" and not "a, b".  A name without a
caret is returned as it is, so ", a" yields a result that starts with a comma
and a space. -/
theorem HumanReadableName_counterexample :
    (∃ c ∈ "a^^^^^^^^^^^b".toList, c ≠ '^') ∧
    HumanReadableName "a^^^^^^^^^^^b".toList = some "a, , b".toList ∧
    expectedName "a^^^^^^^^^^^b".toList = "a, b".toList ∧
    (ofstrCommaSpace ++ ofstrCommaSpace <:+: "a, , b".toList) ∧
    (∃ c ∈ ", a".toList, c ≠ '^') ∧
    HumanReadableName ", a".toList = some ", a".toList ∧
    (ofstrCommaSpace <+: ", a".toList) := by
  decide

/-! ## The confirmation flag -/

/-- C8 at a failing input: an existing annotation text holds "Bevestigd" and
none holds the separator, yet the run adds a reading-physician line, the
normalized name when the field is present and "Onbevestigd" when it is
absent.  The flag is cleared by the scan, after the line was formatted: it is
`false` when the run ends. -/
theorem confirmation_not_suppressed :
    (amend ⟨false, false, false⟩ true
        { recordWith (some [⟨some channelsOfGroup1, some "0".toList,
            some "Bevestigd door: Dr. A".toList⟩]) with
          nameOfPhysiciansReadingStudy := some "Jansen^P".toList }).map
        (fun out => (out.result, annotationTexts out.dataset, out.bIncludeBevestigingDoor))
      = some (RESULT_SUCCESS,
          [some "Bevestigd door: Dr. A", some "Bevestigd door: Jansen, P",
           some "Testind: pijn", some "-+-"], false) ∧
    (amend ⟨false, false, false⟩ true
        (recordWith (some [⟨some channelsOfGroup1, some "0".toList,
            some "Bevestigd door: Dr. A".toList⟩]))).map
        (fun out => (out.result, annotationTexts out.dataset, out.bIncludeBevestigingDoor))
      = some (RESULT_SUCCESS,
          [some "Bevestigd door: Dr. A", some "Bevestigd door: Onbevestigd",
           some "Testind: pijn", some "-+-"], false) := by
  decide

/-! ## The dummy template -/

/-- C9 at a failing input: the second waveform group is the first ORIGINAL
one and no annotation item has a text value.  Without the verbose flag the
clones of the dummy refer to group 1 (`1\0`); with the verbose flag they refer
to group 2 (`2\0`).  The group number is 0 in both runs. -/
theorem dummy_channels_need_verbose :
    (amend ⟨false, false, false⟩ true
        { recordWith (some []) with
          waveformSequence := some [⟨some "DERIVED".toList, some 12⟩,
                                    ⟨some "ORIGINAL".toList, some 12⟩] }).map
        (fun out => (out.dataset.waveformAnnotationSequence.getD []).map
          (fun pNew => (pNew.referencedWaveformChannels, pNew.annotationGroupNumber)))
      = some [(some channelsOfGroup1, some "0".toList), (some channelsOfGroup1, some "0".toList),
              (some channelsOfGroup1, some "0".toList)] ∧
    (amend ⟨true, false, false⟩ true
        { recordWith (some []) with
          waveformSequence := some [⟨some "DERIVED".toList, some 12⟩,
                                    ⟨some "ORIGINAL".toList, some 12⟩] }).map
        (fun out => (out.dataset.waveformAnnotationSequence.getD []).map
          (fun pNew => (pNew.referencedWaveformChannels, pNew.annotationGroupNumber)))
      = some [(some channelsOfGroup2, some "0".toList), (some channelsOfGroup2, some "0".toList),
              (some channelsOfGroup2, some "0".toList)] := by
  decide

/-! ## Running the amendment twice -/

/-- C2 at a failing input: a record without a WaveformAnnotationSequence.  The
run succeeds and writes the record as it was, since the new sequence is never
put into the data set; a second run on the written record succeeds again
instead of ending with the "already amended" warning. -/
theorem second_run_without_sequence :
    amend ⟨false, false, false⟩ true (recordWith none)
      = some ⟨RESULT_SUCCESS, recordWith none, true, true⟩ ∧
    (amend ⟨false, false, false⟩ true (recordWith none)).bind
        (fun out => amend ⟨false, false, false⟩ true out.dataset)
      = some ⟨RESULT_SUCCESS, recordWith none, true, true⟩ ∧
    amend ⟨false, false, true⟩ true (recordWith none)
      = some ⟨RESULT_SUCCESS, recordWith none, true, true⟩ := by
  decide

/-! ## The two character reads of HumanReadableName -/

/-- `HumanReadableName` has no result exactly when one of its two character
reads is made on an empty string. -/
theorem HumanReadableName_eq_none_iff (s : OFString) :
    HumanReadableName s = none ↔ stringAtFirstRead s = [] ∨ stringAtLastRead s = [] := by
  unfold HumanReadableName stringAtLastRead
  simp only
  change (match (stringAtFirstRead s).head? with
    | none => none
    | some first =>
      match (if first = '^' then (stringAtFirstRead s).drop 1
          else stringAtFirstRead s).getLast? with
      | none => none
      | some last =>
        some (replace_all
          (if last = '^' then
            (if first = '^' then (stringAtFirstRead s).drop 1 else stringAtFirstRead s).take
              ((if first = '^' then (stringAtFirstRead s).drop 1
                else stringAtFirstRead s).length - 1)
           else (if first = '^' then (stringAtFirstRead s).drop 1 else stringAtFirstRead s))
          ofstrCaret ofstrCommaSpace)) = none ↔ _
  cases h : (stringAtFirstRead s).head? with
  | none =>
    simp only [true_iff]
    left
    simpa using h
  | some first =>
    simp only
    have hne : stringAtFirstRead s ≠ [] := by
      intro h0; rw [h0] at h; cases h
    cases h2 : (if first = '^' then (stringAtFirstRead s).drop 1
        else stringAtFirstRead s).getLast? with
    | none =>
      simp only [true_iff]
      right
      simpa using h2
    | some last =>
      constructor
      · intro h0; cases h0
      · rintro (h0 | h0)
        · exact absurd h0 hne
        · rw [h0] at h2
          cases h2

/-- The first read is safe: for a non-empty name the string is non-empty when
`*s.begin()` is read. -/
theorem stringAtFirstRead_ne_nil (s : OFString) (hs : s ≠ []) : stringAtFirstRead s ≠ [] := by
  have e3 : ∀ t, replace_all t ofstrCaret3 ofstrCaret = mapRuns afterCaret3 0 t := by
    intro t
    rw [← replaceScan3_eq_mapRuns]
    rfl
  have e2 : ∀ t, replace_all t ofstrCaret2 ofstrCaret = mapRuns afterCaret2 0 t := by
    intro t
    rw [← replaceScan2_eq_mapRuns]
    rfl
  have key : ∀ (f : Nat → Nat), (∀ k, 0 < k → 0 < f k) →
      ∀ (t : OFString) (n : Nat), (0 < n ∨ t ≠ []) → mapRuns f n t ≠ [] := by
    intro f hf t
    induction t with
    | nil =>
      intro n hn
      rcases hn with hn | hn
      · simp only [mapRuns]
        intro h0
        have := congrArg List.length h0
        simp only [List.length_replicate, List.length_nil] at this
        have := hf n hn
        omega
      · exact absurd rfl hn
    | cons c cs ih =>
      intro n _
      by_cases hc : c = '^'
      · subst hc
        simp only [mapRuns, if_true]
        exact ih (n + 1) (Or.inl (by omega))
      · simp only [mapRuns, hc, if_false]
        simp
  have h3 : ∀ k, 0 < k → 0 < afterCaret3 k := by
    intro k hk; simp only [afterCaret3]; omega
  have h2 : ∀ k, 0 < k → 0 < afterCaret2 k := by
    intro k hk; simp only [afterCaret2]; omega
  unfold stringAtFirstRead
  rw [e3, e2, e2]
  exact key _ h2 _ 0 (Or.inr (key _ h2 _ 0 (Or.inr (key _ h3 s 0 (Or.inr hs)))))
theorem mem_mapRuns (f : Nat → Nat) (c : Char) (hc : c ≠ '^') (t : OFString) (hmem : c ∈ t) :
    ∀ n, c ∈ mapRuns f n t := by
  induction t with
  | nil => simp at hmem
  | cons d ds ih =>
    intro n
    by_cases hd : d = '^'
    · subst hd
      simp only [mapRuns, if_true]
      rcases List.mem_cons.mp hmem with h | h
      · exact absurd h hc
      · exact ih h (n + 1)
    · simp only [mapRuns, hd, if_false, List.mem_append, List.mem_cons]
      rcases List.mem_cons.mp hmem with h | h
      · exact Or.inr (Or.inl h)
      · exact Or.inr (Or.inr (ih h 0))

/-- The last read is safe for a name that holds a character other than a
caret: the string is non-empty when `*(s.end()-1)` is read, and
`HumanReadableName` has a result. -/
theorem stringAtLastRead_ne_nil (s : OFString) (hne : ∃ c ∈ s, c ≠ '^') :
    stringAtLastRead s ≠ [] ∧ HumanReadableName s ≠ none := by
  obtain ⟨c, hmem, hc⟩ := hne
  have e3 : ∀ t, replace_all t ofstrCaret3 ofstrCaret = mapRuns afterCaret3 0 t := by
    intro t
    rw [← replaceScan3_eq_mapRuns]
    rfl
  have e2 : ∀ t, replace_all t ofstrCaret2 ofstrCaret = mapRuns afterCaret2 0 t := by
    intro t
    rw [← replaceScan2_eq_mapRuns]
    rfl
  have hfirst : c ∈ stringAtFirstRead s := by
    unfold stringAtFirstRead
    rw [e3, e2, e2]
    exact mem_mapRuns _ c hc _ (mem_mapRuns _ c hc _ (mem_mapRuns _ c hc s hmem 0) 0) 0
  have hlast : c ∈ stringAtLastRead s := by
    unfold stringAtLastRead
    cases h : stringAtFirstRead s with
    | nil => rw [h] at hfirst; simp at hfirst
    | cons x xs =>
      rw [h] at hfirst
      simp only [List.head?_cons]
      split
      · rename_i hx
        rcases List.mem_cons.mp hfirst with h1 | h1
        · rw [← h1] at hx
          exact absurd hx hc
        · simpa using h1
      · exact hfirst
  have h1 : stringAtLastRead s ≠ [] := List.ne_nil_of_mem hlast
  refine ⟨h1, ?_⟩
  rw [ne_eq, HumanReadableName_eq_none_iff, not_or]
  exact ⟨List.ne_nil_of_mem hfirst, h1⟩

/-- The last read is made on an empty string for every name of one to ten
carets: the passes leave one caret, which is erased as the first character
before `*(s.end()-1)` is read. -/
theorem stringAtLastRead_carets (n : Nat) (h1 : 1 ≤ n) (h10 : n ≤ 10) :
    stringAtFirstRead (List.replicate n '^') = ['^'] ∧
    stringAtLastRead (List.replicate n '^') = [] ∧
    HumanReadableName (List.replicate n '^') = none := by
  have hrun : ¬ (List.replicate 11 '^' <:+: List.replicate n '^') := by
    intro h
    have := h.length_le
    simp only [List.length_replicate] at this
    omega
  have hfirst : stringAtFirstRead (List.replicate n '^') = ['^'] := by
    unfold stringAtFirstRead
    rw [three_passes_collapse _ hrun]
    have := mapRuns_replicate collapsedRun [] n 0
    simp only [List.append_nil, Nat.zero_add] at this
    rw [this]
    have hc : collapsedRun n = 1 := by
      simp only [collapsedRun]; split <;> omega
    simp [mapRuns, hc]
  have hlast : stringAtLastRead (List.replicate n '^') = [] := by
    unfold stringAtLastRead
    rw [hfirst]
    rfl
  exact ⟨hfirst, hlast, (HumanReadableName_eq_none_iff _).mpr (Or.inr hlast)⟩

/-- C11 at a failing input: the names "^^^^" and "^" are non-empty, the first
read is made on the one caret the passes leave, and the last read is made on
the empty string that is left when that caret is erased; `HumanReadableName`
has no result, and neither has a run on a record whose OperatorsName is
"^^^^". -/
theorem last_read_on_empty_string :
    "^^^^".toList ≠ [] ∧
    stringAtFirstRead "^^^^".toList = ['^'] ∧
    stringAtLastRead "^^^^".toList = [] ∧
    HumanReadableName "^^^^".toList = none ∧
    "^".toList ≠ [] ∧
    stringAtFirstRead "^".toList = ['^'] ∧
    stringAtLastRead "^".toList = [] ∧
    HumanReadableName "^".toList = none ∧
    amend ⟨false, false, false⟩ true
      { recordWith (some []) with operatorsName := some "^^^^".toList } = none := by
  decide

/-! ## The length of the new text values -/

theorem c_str_length_le (s : OFString) : (c_str s).length ≤ s.length := by
  unfold c_str
  exact (List.takeWhile_sublist _).length_le

theorem snprintfST_length_le (label arg : OFString) : (snprintfST label arg).length ≤ 1023 := by
  unfold snprintfST
  rw [List.length_take]
  exact Nat.min_le_left _ _

theorem formatName_length_le (label : OFString) (field : Option OFString) (line : OFString)
    (h : formatName label field = some line) : line.length ≤ 1023 := by
  unfold formatName at h
  split at h
  · split at h
    · cases h; simp
    · simp only [Option.map_eq_some'] at h
      obtain ⟨name, _, rfl⟩ := h
      exact snprintfST_length_le _ _
  · cases h; simp

theorem formatReadingPhysician_length_le (b : Bool) (field : Option OFString) (line : OFString)
    (h : formatReadingPhysician b field = some line) : line.length ≤ 1023 := by
  unfold formatReadingPhysician at h
  split at h
  · split at h
    · cases h; decide
    · split at h
      · simp only [Option.map_eq_some'] at h
        obtain ⟨name, _, rfl⟩ := h
        exact snprintfST_length_le _ _
      · cases h; simp
  · cases h; decide

theorem formatVisitComments_length_le (field : Option OFString) :
    (formatVisitComments field).length ≤ 1023 := by
  unfold formatVisitComments
  split
  · split
    · simp
    · exact snprintfST_length_le _ _
  · simp

theorem mem_pushNonEmpty (stack : List OFString) (line x : OFString)
    (h : x ∈ pushNonEmpty stack line) : x = line ∨ x ∈ stack := by
  unfold pushNonEmpty at h
  split at h
  · exact Or.inr h
  · exact List.mem_cons.mp h

/-- Every line of the assembled stack fits the formatting buffer: it has at
most 1023 characters. -/
theorem pushed_lines_bounded (b : Bool) (ds : Dataset) (pushed : List OFString)
    (h : assembleStack b ds = some pushed) : ∀ line ∈ pushed, line.length ≤ 1023 := by
  unfold assembleStack at h
  simp only at h
  split at h
  · cases h
  · rename_i l2 h2
    split at h
    · cases h
    · rename_i l3 h3
      split at h
      · cases h
      · rename_i l4 h4
        split at h
        · cases h
        · rename_i l5 h5
          cases h
          intro line hmem
          rcases mem_pushNonEmpty _ _ _ hmem with e | hmem
          · rw [e]; exact formatReadingPhysician_length_le _ _ _ h5
          rcases mem_pushNonEmpty _ _ _ hmem with e | hmem
          · rw [e]; exact formatName_length_le _ _ _ h4
          rcases mem_pushNonEmpty _ _ _ hmem with e | hmem
          · rw [e]; exact formatName_length_le _ _ _ h3
          rcases mem_pushNonEmpty _ _ _ hmem with e | hmem
          · rw [e]; exact formatName_length_le _ _ _ h2
          rcases mem_pushNonEmpty _ _ _ hmem with e | hmem
          · rw [e]; exact formatVisitComments_length_le _
          · rw [List.mem_singleton.mp hmem]; decide

/-- Without the merge option the limit holds: after a successful run on a
record with annotation sequence `g`, every item of the written sequence is an
item of `g` or holds a text of at most 1023 characters. -/
theorem new_texts_bounded_without_merge (opts : Options) (saveOk : Bool) (ds : Dataset)
    (g : List AnnotationItem) (out : Outcome) (hmerge : opts.bMergeLines = false)
    (hg : ds.waveformAnnotationSequence = some g)
    (hrun : amend opts saveOk ds = some out) (hok : out.result = RESULT_SUCCESS) :
    ∀ pItem ∈ out.dataset.waveformAnnotationSequence.getD [],
      pItem ∈ g ∨ ∃ v, pItem.unformattedTextValue = some v ∧ v.length ≤ 1023 := by
  obtain ⟨pushed, hp, _, _, hout⟩ := amend_success opts saveOk ds out hrun hok
  rw [hout] at hok
  obtain ⟨st, hscan, hds⟩ := spliceAnnotations_success saveOk true ds _ _ g hg hok
  rw [insertLines_scan _ g true st _ hscan, ← hout] at hds
  rw [hds]
  simp only [withAnnotations, Option.getD_some, hmerge, Bool.false_eq_true, if_false]
  intro pItem hmem
  rcases List.mem_append.mp hmem with hmem | hmem
  · rcases List.mem_append.mp hmem with hmem | hmem
    · exact Or.inl (List.mem_of_mem_take hmem)
    · right
      obtain ⟨line, hline, rfl⟩ := List.mem_map.mp hmem
      refine ⟨c_str line, rfl, ?_⟩
      have hl : line ∈ pushed := by
        split at hline
        · exact List.mem_reverse.mp hline
        · exact hline
      exact Nat.le_trans (c_str_length_le _) (pushed_lines_bounded true ds pushed hp line hl)
  · exact Or.inl (List.mem_of_mem_drop hmem)

set_option maxRecDepth 100000 in
/-- C12 at a failing input: with the merge option and VisitComments of 1000
characters the one new item holds a text of 1043 characters, more than the
1024 allowed; without the merge option the three new texts have 27, 1009 and 3
characters. -/
theorem merged_text_exceeds_limit :
    (amend ⟨false, false, true⟩ true
        { recordWith (some []) with visitComments := some (List.replicate 1000 'x') }).map
        (fun out => (out.result, (out.dataset.waveformAnnotationSequence.getD []).map
          (fun pNew => (pNew.unformattedTextValue.getD []).length)))
      = some (RESULT_SUCCESS, [1043]) ∧
    (amend ⟨false, false, false⟩ true
        { recordWith (some []) with visitComments := some (List.replicate 1000 'x') }).map
        (fun out => (out.result, (out.dataset.waveformAnnotationSequence.getD []).map
          (fun pNew => (pNew.unformattedTextValue.getD []).length)))
      = some (RESULT_SUCCESS, [27, 1009, 3]) := by
  decide

end AmendEcgAnnotation
